import Mathlib

/-!
Verification of the OpenClaw context-management engine: a shallow embedding of
`src/agents/pi-embedded-runner/history.ts`, `src/agents/context-budget.ts`,
`src/agents/semantic-history.ts` and `src/agents/rolling-summary.ts`,
with theorems about history trimming, budget allocation, semantic retrieval
packing and rolling-summary fallback.

Conventions of the embedding:
* `AgentMessage` values matter to this code only through their `role` string
  and their `estimateTokens` value (an external heuristic), so a message is
  modelled as a record of those two.
* JavaScript numbers used as token counts are naturals; budgets that the code
  compares against `<= 0` are integers; configuration ratios and relevance
  scores are exact rationals (the idealised arithmetic the spec states).
* `async` functions that consult an external service are modelled by passing
  the outcome of the service call as an argument (`none` = the promise
  rejected, `some x` = it resolved with `x`).
-/

/-- A conversation message as seen by the trimming code: its `role` string and
its estimated token count (the value of the external `estimateTokens`). -/
structure Msg where
  role : String
  tokens : Nat
deriving DecidableEq, Repr

/-- Sum of estimated tokens of a message list (`estimateMessagesTokens`). -/
def sumTokens (messages : List Msg) : Nat :=
  (messages.map Msg.tokens).sum

/-- Number of messages with role `user` in a list. -/
def countUsers : List Msg → Nat
  | [] => 0
  | msg :: rest => (if msg.role = "user" then 1 else 0) + countUsers rest

/-- The message at index `i` has role `user` (`messages[i].role === "user"`). -/
def IsUserAt (messages : List Msg) (i : Nat) : Prop :=
  (messages[i]?).map Msg.role = some "user"

instance (messages : List Msg) (i : Nat) : Decidable (IsUserAt messages i) := by
  unfold IsUserAt; infer_instance

/-- Loop of `limitHistoryTurns` (history.ts lines 27-35), iterating the index
`i` from the end of the list towards 0, carrying `userCount` and
`lastUserIndex`.  On the `(limit+1)`-th user message seen from the end it
returns `messages.slice(lastUserIndex)`; if the loop finishes it returns
`messages`. -/
def lhtAux (messages : List Msg) (limit : Nat) : Nat → Nat → Nat → List Msg
  | 0, userCount, lastUserIndex =>
    if IsUserAt messages 0 ∧ limit < userCount + 1 then messages.drop lastUserIndex
    else messages
  | j + 1, userCount, lastUserIndex =>
    if IsUserAt messages (j + 1) then
      (if limit < userCount + 1 then messages.drop lastUserIndex
       else lhtAux messages limit j (userCount + 1) (j + 1))
    else lhtAux messages limit j userCount lastUserIndex

/-- `limitHistoryTurns(messages, limit)` from history.ts: keeps the last
`limit` user turns together with their following messages.  A missing,
zero or negative limit, or an empty list, returns the input unchanged
(`!limit || limit <= 0 || messages.length === 0`). -/
def limitHistoryTurns (messages : List Msg) (limit : Option Int) : List Msg :=
  match limit with
  | none => messages
  | some l =>
    if l ≤ 0 ∨ messages.length = 0 then messages
    else lhtAux messages l.toNat (messages.length - 1) 0 messages.length

/-- Token count of the message at index `i` (0 when out of range; the loops
only ever use in-range indices). -/
def tokensAt (messages : List Msg) (i : Nat) : Nat :=
  ((messages[i]?).map Msg.tokens).getD 0

/-- Loop of `findRecentTurnsSplit` (history.ts lines 179-191): walks indices
from the end accumulating tokens; breaks with the current index once
`preserveTurns` user messages have been counted.  Returns
`(recentStartIndex, recentTokens)`. -/
def frtAux (messages : List Msg) (preserve : Nat) : Nat → Nat → Nat → Nat × Nat
  | 0, _userCount, acc => (0, acc + tokensAt messages 0)
  | j + 1, userCount, acc =>
    if IsUserAt messages (j + 1) then
      (if preserve ≤ userCount + 1 then (j + 1, acc + tokensAt messages (j + 1))
       else frtAux messages preserve j (userCount + 1) (acc + tokensAt messages (j + 1)))
    else frtAux messages preserve j userCount (acc + tokensAt messages (j + 1))

/-- `findRecentTurnsSplit(messages, preserveTurns)` from history.ts:
the index where the preserved recent turns start, and their token total.
`preserveTurns <= 0` short-circuits to `(messages.length, 0)`. -/
def findRecentTurnsSplit (messages : List Msg) (preserveTurns : Int) : Nat × Nat :=
  if preserveTurns ≤ 0 then (messages.length, 0)
  else if messages.length = 0 then (messages.length, 0)
  else frtAux messages preserveTurns.toNat (messages.length - 1) 0 0

/-- The drop-count loop of `truncateMessagesToFit` (history.ts lines 217-220):
how many leading entries of `tokens` are consumed while `toRemove` stays
positive. -/
def dropCountFor : List Nat → Int → Nat
  | [], _ => 0
  | t :: ts, toRemove =>
    if 0 < toRemove then dropCountFor ts (toRemove - t) + 1 else 0

/-- Index of the first message with role `user` (the forward scan of
history.ts lines 224-229). -/
def findUserIdx : List Msg → Option Nat
  | [] => none
  | msg :: rest =>
    if msg.role = "user" then some 0 else (findUserIdx rest).map (· + 1)

/-- Boundary alignment of `truncateMessagesToFit`: advance the drop count
forward to the next `user`-role message, if any. -/
def adjustDropCount (messages : List Msg) (dropCount : Nat) : Nat :=
  match findUserIdx (messages.drop dropCount) with
  | some j => dropCount + j
  | none => dropCount

/-- `truncateMessagesToFit(messages, budgetTokens)` from history.ts:
drops oldest messages until the rest fit the budget, then aligns the
boundary to the next user message. -/
def truncateMessagesToFit (messages : List Msg) (budgetTokens : Int) : List Msg :=
  if messages.length = 0 ∨ budgetTokens ≤ 0 then []
  else
    let messageTokens := messages.map Msg.tokens
    let totalTokens := messageTokens.sum
    if (totalTokens : Int) ≤ budgetTokens then messages
    else
      let dropCount := dropCountFor messageTokens ((totalTokens : Int) - budgetTokens)
      messages.drop (adjustDropCount messages dropCount)

/-- Options record of `limitHistoryByTokens` (`preserveRecentTurns?`). -/
structure LimitHistoryByTokensOptions where
  preserveRecentTurns : Option Int
deriving DecidableEq, Repr

/-- `options?.preserveRecentTurns ?? 5`. -/
def preserveRecentTurnsOf (options : Option LimitHistoryByTokensOptions) : Int :=
  match options with
  | none => 5
  | some o => o.preserveRecentTurns.getD 5

/-- `limitHistoryByTokens(messages, budgetTokens, options)` from history.ts:
token-based history limiting.  Preserves the recent-turn window when it fits,
fills the remaining budget with the newest of the older messages, and
truncates the recent window itself when it alone exceeds the budget. -/
def limitHistoryByTokens (messages : List Msg) (budgetTokens : Int)
    (options : Option LimitHistoryByTokensOptions) : List Msg :=
  if messages.length = 0 ∨ budgetTokens ≤ 0 then []
  else
    let preserveRecentTurns : Int := preserveRecentTurnsOf options
    let totalTokens := sumTokens messages
    if (totalTokens : Int) ≤ budgetTokens then messages
    else
      let split := findRecentTurnsSplit messages preserveRecentTurns
      let recentStartIndex := split.1
      let recentTokens := split.2
      if budgetTokens < (recentTokens : Int) then
        truncateMessagesToFit (messages.drop recentStartIndex) budgetTokens
      else
        let remainingBudget := budgetTokens - (recentTokens : Int)
        let olderMessages := messages.take recentStartIndex
        let recentMessages := messages.drop recentStartIndex
        if olderMessages.length = 0 ∨ remainingBudget ≤ 0 then recentMessages
        else truncateMessagesToFit olderMessages remainingBudget ++ recentMessages

/-!
Session-key parsing and DM history-limit lookup (history.ts lines 5-99).
Session keys and configuration keys are modelled as `List Char`; splitting,
joining and the thread-suffix regex are implemented over character lists.
-/

/-- `value.split(":")`: split a character list at every colon (a trailing or
leading colon yields an empty piece, as in JavaScript). -/
def splitColon : List Char → List (List Char)
  | [] => [[]]
  | c :: rest =>
    if c = ':' then [] :: splitColon rest
    else
      match splitColon rest with
      | [] => [[c]]
      | piece :: pieces => (c :: piece) :: pieces

/-- `sessionKey.split(":").filter(Boolean)`: the non-empty colon-separated
segments. -/
def keyParts (sessionKey : List Char) : List (List Char) :=
  (splitColon sessionKey).filter (fun piece => piece ≠ [])

/-- `parts.join(":")`. -/
def joinColon : List (List Char) → List Char
  | [] => []
  | [piece] => piece
  | piece :: rest => piece ++ ':' :: joinColon rest

/-- `stripThreadSuffix(value)` from history.ts lines 5-10: the regex
`^(.*)(?::(?:thread|topic):\d+)$/i` strips one trailing `:thread:<digits>` or
`:topic:<digits>` suffix (case-insensitive keyword); anything else is
returned unchanged.  Implemented by scanning the reversed list: a non-empty
trailing digit run, preceded by `:`, preceded by the keyword, preceded by
`:`. -/
def stripThreadSuffix (value : List Char) : List Char :=
  let rev := value.reverse
  let digits := rev.takeWhile Char.isDigit
  let rest := rev.dropWhile Char.isDigit
  if digits = [] then value
  else
    match rest with
    | c :: rest2 =>
      if c = ':' then
        if (rest2.take 6).map Char.toLower = "daerht".toList ∧
            (rest2.drop 6).head? = some ':' then
          ((rest2.drop 7).reverse)
        else if (rest2.take 5).map Char.toLower = "cipot".toList ∧
            (rest2.drop 5).head? = some ':' then
          ((rest2.drop 6).reverse)
        else value
      else value
    | [] => value

/-- Per-DM override entry (`dms.<id>.historyLimit`). -/
structure DmConfigEntry where
  historyLimit : Option Int
deriving DecidableEq, Repr

/-- Per-provider channel configuration as read by the lookup
(`channels.<provider>.{dmHistoryLimit, dms}`). -/
structure ProviderChannelConfig where
  dmHistoryLimit : Option Int
  dms : List (List Char × DmConfigEntry)
deriving DecidableEq, Repr

/-- The slice of `OpenClawConfig` the lookup reads: the `channels` mapping
from provider id to per-provider configuration. -/
structure OpenClawConfig where
  channels : List (List Char × ProviderChannelConfig)
deriving DecidableEq, Repr

/-- `resolveProviderConfig(cfg, providerId)`: the `channels[providerId]`
entry, when present. -/
def resolveProviderConfig (cfg : OpenClawConfig) (providerId : List Char) :
    Option ProviderChannelConfig :=
  (cfg.channels.find? (fun entry => entry.1 = providerId)).map Prod.snd

/-- `providerConfig.dms?.[userId]`. -/
def dmsLookup (pc : ProviderChannelConfig) (userId : List Char) :
    Option DmConfigEntry :=
  (pc.dms.find? (fun entry => entry.1 = userId)).map Prod.snd

/-- The provider-part list of a session key (history.ts line 52): drop the
leading `agent:<main|sub>` when the key has at least three segments and
starts with `agent`. -/
def providerPartsOf (sessionKey : List Char) : List (List Char) :=
  let parts := keyParts sessionKey
  if 3 ≤ parts.length ∧ parts.head? = some "agent".toList then parts.drop 2
  else parts

/-- The lower-cased kind segment of a session key (`providerParts[1]`). -/
def parsedKind (sessionKey : List Char) : Option (List Char) :=
  ((providerPartsOf sessionKey)[1]?).map (List.map Char.toLower)

/-- The raw user id of a session key (`providerParts.slice(2).join(":")`). -/
def parsedUserIdRaw (sessionKey : List Char) : List Char :=
  joinColon ((providerPartsOf sessionKey).drop 2)

/-- The user id of a session key after thread-suffix stripping. -/
def parsedUserId (sessionKey : List Char) : List Char :=
  stripThreadSuffix (parsedUserIdRaw sessionKey)

/-- `getLimit(providerConfig)` from history.ts lines 66-81: a per-user
`dms.<id>.historyLimit` override (for a truthy user id) wins over the
provider-wide `dmHistoryLimit`. -/
def getLimit (pc : ProviderChannelConfig) (userId : List Char) : Option Int :=
  if userId ≠ [] then
    match dmsLookup pc userId with
    | some entry =>
      match entry.historyLimit with
      | some h => some h
      | none => pc.dmHistoryLimit
    | none => pc.dmHistoryLimit
  else pc.dmHistoryLimit

/-- `getDmHistoryLimitFromSessionKey(sessionKey, config)` from history.ts
lines 43-99. -/
def getDmHistoryLimitFromSessionKey (sessionKey : List Char)
    (config : Option OpenClawConfig) : Option Int :=
  match config with
  | none => none
  | some cfg =>
    if sessionKey = [] then none
    else
      match (providerPartsOf sessionKey).head? with
      | none => none
      | some p0 =>
        let provider := p0.map Char.toLower
        if parsedKind sessionKey ≠ some "dm".toList then none
        else
          match resolveProviderConfig cfg provider with
          | none => none
          | some pc => getLimit pc (parsedUserId sessionKey)

/-!
Token-budget allocation (context-budget.ts).  Ratios are exact rationals;
allocations are integers produced by `Math.floor`.
-/

/-- `ContextBudget` from context-budget.ts: the per-call allocation. -/
structure ContextBudget where
  total : Int
  systemPrompt : Int
  bootstrap : Int
  history : Int
  response : Int
  reserve : Int
deriving DecidableEq, Repr

/-- `ContextBudgetConfig` from context-budget.ts. -/
structure ContextBudgetConfig where
  systemPromptRatio : ℚ
  bootstrapRatio : ℚ
  historyRatio : ℚ
  responseRatio : ℚ
  minResponseTokens : Int
deriving DecidableEq, Repr

/-- `DEFAULT_CONTEXT_BUDGET_CONFIG`: ratios (0.15, 0.10, 0.45, 0.20), floor
4096. -/
def DEFAULT_CONTEXT_BUDGET_CONFIG : ContextBudgetConfig :=
  { systemPromptRatio := 15 / 100
    bootstrapRatio := 10 / 100
    historyRatio := 45 / 100
    responseRatio := 20 / 100
    minResponseTokens := 4096 }

/-- `ContextBudgetManager.computeBudget(contextWindow)` from context-budget.ts
lines 303-332: floor-allocate each ratio of `total = max(1, floor(window))`,
clamp the response to `minResponseTokens` taking the deficit out of history
(never below 0), and put the unallocated remainder in `reserve`. -/
def computeBudget (cfg : ContextBudgetConfig) (contextWindow : ℚ) : ContextBudget :=
  let total : Int := max 1 ⌊contextWindow⌋
  let systemPrompt : Int := ⌊(total : ℚ) * cfg.systemPromptRatio⌋
  let bootstrap : Int := ⌊(total : ℚ) * cfg.bootstrapRatio⌋
  let history0 : Int := ⌊(total : ℚ) * cfg.historyRatio⌋
  let response0 : Int := ⌊(total : ℚ) * cfg.responseRatio⌋
  let response : Int :=
    if response0 < cfg.minResponseTokens then cfg.minResponseTokens else response0
  let history : Int :=
    if response0 < cfg.minResponseTokens then
      max 0 (history0 - (cfg.minResponseTokens - response0))
    else history0
  let reserve : Int := max 0 (total - (systemPrompt + bootstrap + history + response))
  { total := total
    systemPrompt := systemPrompt
    bootstrap := bootstrap
    history := history
    response := response
    reserve := reserve }

/-- Modelled from the spec: `DEFAULT_CONTEXT_TOKENS` lives in `defaults.ts`,
which is not part of the analysed sources; the repository's budget tests
describe it as "the default 200k window". -/
def DEFAULT_CONTEXT_TOKENS : ℚ := 200000

/-- `ContextBudgetManager.computeHistoryBudget(used)` from context-budget.ts
lines 341-358: base history plus the non-negative unused parts of the
system-prompt and bootstrap allocations plus the reserve. -/
def computeHistoryBudget (cfg : ContextBudgetConfig) (usedSystemPrompt : Int)
    (usedBootstrap : Int) (usedContextWindow : Option ℚ) : Int :=
  let contextWindow := usedContextWindow.getD DEFAULT_CONTEXT_TOKENS
  let budget := computeBudget cfg contextWindow
  let systemPromptDelta := budget.systemPrompt - usedSystemPrompt
  let bootstrapDelta := budget.bootstrap - usedBootstrap
  let reclaimable := max 0 systemPromptDelta + max 0 bootstrapDelta
  budget.history + reclaimable + budget.reserve

/-- `estimateTextTokens(text)` from context-budget.ts: `Math.ceil(len / 4)`. -/
def estimateTextTokens (text : String) : Nat :=
  (text.length + 3) / 4

/-!
Semantic history retrieval (semantic-history.ts).  The memory search provider
is external; `retrieve` takes the outcome of `memorySearch.search` as an
argument (`none` models a rejected promise, caught by the `catch` branch).
-/

/-- `SemanticHistoryConfig` from semantic-history.ts. -/
structure SemanticHistoryConfig where
  enabled : Bool
  maxRetrievedChunks : Nat
  minRelevanceScore : ℚ
deriving DecidableEq, Repr

/-- `DEFAULT_SEMANTIC_HISTORY_CONFIG`: disabled, 5 chunks, score 0.6. -/
def DEFAULT_SEMANTIC_HISTORY_CONFIG : SemanticHistoryConfig :=
  { enabled := false, maxRetrievedChunks := 5, minRelevanceScore := 6 / 10 }

/-- A `MemorySearchResult` as consumed by `retrieve`. -/
structure MemorySearchResult where
  path : String
  snippet : String
  score : ℚ
  startLine : Int
  endLine : Int
deriving DecidableEq, Repr

/-- A `RetrievedContext` chunk. -/
structure RetrievedContext where
  path : String
  snippet : String
  score : ℚ
  startLine : Int
  endLine : Int
  tokens : Nat
deriving DecidableEq, Repr

/-- A `SemanticHistoryResult`. -/
structure SemanticHistoryResult where
  contexts : List RetrievedContext
  totalTokens : Nat
  didRetrieve : Bool
deriving DecidableEq, Repr

/-- `text.lastIndexOf(c)` over a character list: the largest index holding
`c`, or `-1`. -/
def firstIdxOfChar : List Char → Char → Option Nat
  | [], _ => none
  | x :: xs, c => if x = c then some 0 else (firstIdxOfChar xs c).map (· + 1)

/-- `lastIndexOf` via the first occurrence in the reversed list. -/
def lastIndexOfChar (l : List Char) (c : Char) : Int :=
  match firstIdxOfChar l.reverse c with
  | some j => (l.length : Int) - 1 - j
  | none => -1

/-- `truncateToTokens(text, maxTokens)` from semantic-history.ts lines
212-232: cut to `maxTokens * 4` characters, prefer a period/newline/space
boundary in the second half, and append an ellipsis. -/
def truncateToTokens (text : String) (maxTokens : Int) : String :=
  let maxChars : Int := maxTokens * 4
  let cs := text.toList
  if (cs.length : Int) ≤ maxChars then text
  else
    let truncated := cs.take maxChars.toNat
    let lastPeriod := lastIndexOfChar truncated '.'
    let lastNewline := lastIndexOfChar truncated '\n'
    let lastSpace := lastIndexOfChar truncated ' '
    let breakPoint := max lastPeriod (max lastNewline lastSpace)
    if maxChars < 2 * breakPoint then
      String.mk (truncated.take (breakPoint + 1).toNat ++ "...".toList)
    else String.mk (truncated ++ "...".toList)

/-- Build a `RetrievedContext` from a search result with the given snippet
and token count. -/
def mkContext (r : MemorySearchResult) (snippet : String) (tokens : Nat) :
    RetrievedContext :=
  { path := r.path, snippet := snippet, score := r.score,
    startLine := r.startLine, endLine := r.endLine, tokens := tokens }

/-- The packing loop of `retrieve` (semantic-history.ts lines 117-160):
walk the relevant results keeping a running `contexts` length (`count`) and
token total; stop at the chunk cap; a chunk that would overflow the budget is
truncated when at least 100 tokens remain and dropped otherwise, and either
way ends the loop. -/
def packChunks (maxChunks : Nat) (budget : Int) :
    List MemorySearchResult → Nat → Nat → List RetrievedContext × Nat
  | [], _count, total => ([], total)
  | r :: rest, count, total =>
    if maxChunks ≤ count then ([], total)
    else
      let tokens := estimateTextTokens r.snippet
      if budget < ((total + tokens : Nat) : Int) then
        let availableTokens : Int := budget - (total : Int)
        if availableTokens < 100 then ([], total)
        else
          let truncatedSnippet := truncateToTokens r.snippet availableTokens
          let truncatedTokens := estimateTextTokens truncatedSnippet
          ([mkContext r truncatedSnippet truncatedTokens], total + truncatedTokens)
      else
        let packed := packChunks maxChunks budget rest (count + 1) (total + tokens)
        (mkContext r r.snippet tokens :: packed.1, packed.2)

/-- The whitespace test of JavaScript `String.prototype.trim`. -/
def isJsWhitespace (c : Char) : Bool :=
  c = ' ' ∨ c = '\t' ∨ c = '\n' ∨ c = '\r' ∨ c = '\x0b' ∨ c = '\x0c'

/-- `!currentPrompt.trim()`: the prompt trims to the empty string exactly when
every character is whitespace. -/
def trimsToEmpty (s : String) : Bool :=
  s.toList.all isJsWhitespace

/-- `SemanticHistoryRetriever.retrieve(currentPrompt, memorySearch,
budgetTokens)` from semantic-history.ts lines 85-178.  `searchOutcome` is the
outcome of the awaited `memorySearch.search` call (`none` = rejected, which
the source catches and maps to an empty non-retrieval result). -/
def retrieve (cfg : SemanticHistoryConfig) (currentPrompt : String)
    (searchOutcome : Option (List MemorySearchResult)) (budgetTokens : Int) :
    SemanticHistoryResult :=
  if cfg.enabled = false then
    { contexts := [], totalTokens := 0, didRetrieve := false }
  else if trimsToEmpty currentPrompt ∨ budgetTokens ≤ 0 then
    { contexts := [], totalTokens := 0, didRetrieve := false }
  else
    match searchOutcome with
    | none => { contexts := [], totalTokens := 0, didRetrieve := false }
    | some results =>
      let relevant := results.filter (fun r => cfg.minRelevanceScore ≤ r.score)
      let packed := packChunks cfg.maxRetrievedChunks budgetTokens relevant 0 0
      { contexts := packed.1, totalTokens := packed.2, didRetrieve := true }

/-!
Rolling summarisation (rolling-summary.ts).  `summarizeInStages` lives in the
external compaction module; `buildContextWithSummary` therefore takes the
outcome of that awaited call as an argument (`none` = the promise rejected,
taken by the source's `catch` branch).  Its `estimateMessagesTokens` is the
same per-message token sum used by the rest of the engine.
-/

/-- `RollingSummaryConfig` from rolling-summary.ts. -/
structure RollingSummaryConfig where
  enabled : Bool
  windowSize : Int
  summaryMaxTokens : Int
  triggerThreshold : Int
deriving DecidableEq, Repr

/-- `DEFAULT_ROLLING_SUMMARY_CONFIG`: disabled, window 5, 2000 summary
tokens, 30000-token trigger. -/
def DEFAULT_ROLLING_SUMMARY_CONFIG : RollingSummaryConfig :=
  { enabled := false, windowSize := 5, summaryMaxTokens := 2000,
    triggerThreshold := 30000 }

/-- `RollingSummaryResult` from rolling-summary.ts. -/
structure RollingSummaryResult where
  recentMessages : List Msg
  summaryText : String
  totalTokens : Nat
  didSummarize : Bool
  summarizedMessageCount : Nat
deriving DecidableEq, Repr

/-- `RollingSummarizer.shouldSummarize(messages, budgetTokens)` from
rolling-summary.ts lines 373-384: enabled and total tokens above
`min(triggerThreshold, budgetTokens * 0.8)` (the budget bound applies only
for a truthy budget).  The comparison `min(x, b*8/10) < total` is encoded
with cleared denominators: `x < total or 8*b < 10*total`. -/
def shouldSummarize (cfg : RollingSummaryConfig) (messages : List Msg)
    (budgetTokens : Option Int) : Bool :=
  if cfg.enabled = false then false
  else
    let totalTokens := sumTokens messages
    match budgetTokens with
    | some b =>
      if b = 0 then decide (cfg.triggerThreshold < (totalTokens : Int))
      else decide (cfg.triggerThreshold < (totalTokens : Int) ∨
        8 * b < 10 * (totalTokens : Int))
    | none => decide (cfg.triggerThreshold < (totalTokens : Int))

/-- Loop of `splitByTurns` (rolling-summary.ts lines 489-502): walk indices
from the end; `splitIndex` tracks the latest user index until the
`(windowSize+1)`-th user from the end, which sets the split just after
itself. -/
def sbtAux (messages : List Msg) (windowSize : Int) : Nat → Nat → Nat → Nat
  | 0, userTurnCount, splitIndex =>
    if IsUserAt messages 0 then
      (if windowSize < (userTurnCount : Int) + 1 then 1 else 0)
    else splitIndex
  | j + 1, userTurnCount, splitIndex =>
    if IsUserAt messages (j + 1) then
      (if windowSize < (userTurnCount : Int) + 1 then j + 2
       else sbtAux messages windowSize j (userTurnCount + 1) (j + 1))
    else sbtAux messages windowSize j userTurnCount splitIndex

/-- `RollingSummarizer.splitByTurns(messages)`: `(recentMessages,
olderMessages)` keeping the last `windowSize` user turns recent. -/
def splitByTurns (cfg : RollingSummaryConfig) (messages : List Msg) :
    List Msg × List Msg :=
  match messages.length with
  | 0 => ([], [])
  | n + 1 =>
    let splitIndex := sbtAux messages cfg.windowSize n 0 messages.length
    if splitIndex = 0 then (messages, [])
    else (messages.drop splitIndex, messages.take splitIndex)

/-- `RollingSummarizer.buildContextWithSummary(params)` from
rolling-summary.ts lines 392-475.  The staged summariser call is external;
`summaryOutcome` is its awaited outcome (`some text` = resolved summary,
`none` = rejected, which the source's `catch` turns into the no-summary
fallback that keeps the recent window and any existing summary). -/
def buildContextWithSummary (cfg : RollingSummaryConfig) (messages : List Msg)
    (budget : Int) (existingSummary : Option String)
    (summaryOutcome : Option String) : RollingSummaryResult :=
  if shouldSummarize cfg messages (some budget) = false then
    { recentMessages := messages
      summaryText := existingSummary.getD ""
      totalTokens := sumTokens messages + estimateTextTokens (existingSummary.getD "")
      didSummarize := false
      summarizedMessageCount := 0 }
  else
    let split := splitByTurns cfg messages
    let recentMessages := split.1
    let olderMessages := split.2
    if olderMessages.length = 0 then
      { recentMessages := messages
        summaryText := existingSummary.getD ""
        totalTokens := sumTokens messages + estimateTextTokens (existingSummary.getD "")
        didSummarize := false
        summarizedMessageCount := 0 }
    else
      let recentTokens := sumTokens recentMessages
      match summaryOutcome with
      | some summaryText =>
        { recentMessages := recentMessages
          summaryText := summaryText
          totalTokens := recentTokens + estimateTextTokens summaryText
          didSummarize := true
          summarizedMessageCount := olderMessages.length }
      | none =>
        { recentMessages := recentMessages
          summaryText := existingSummary.getD ""
          totalTokens := recentTokens + estimateTextTokens (existingSummary.getD "")
          didSummarize := false
          summarizedMessageCount := 0 }

/-!
Theorems.  Claims C1-C10 of the specification, in order, with the helper
lemmas they share.
-/

/-- Let-free unfolding of `computeBudget`. -/
lemma computeBudget_eq (cfg : ContextBudgetConfig) (w : ℚ) :
    computeBudget cfg w =
      { total := max 1 ⌊w⌋
        systemPrompt := ⌊((max 1 ⌊w⌋ : ℤ) : ℚ) * cfg.systemPromptRatio⌋
        bootstrap := ⌊((max 1 ⌊w⌋ : ℤ) : ℚ) * cfg.bootstrapRatio⌋
        history :=
          if ⌊((max 1 ⌊w⌋ : ℤ) : ℚ) * cfg.responseRatio⌋ < cfg.minResponseTokens then
            max 0 (⌊((max 1 ⌊w⌋ : ℤ) : ℚ) * cfg.historyRatio⌋ -
              (cfg.minResponseTokens - ⌊((max 1 ⌊w⌋ : ℤ) : ℚ) * cfg.responseRatio⌋))
          else ⌊((max 1 ⌊w⌋ : ℤ) : ℚ) * cfg.historyRatio⌋
        response :=
          if ⌊((max 1 ⌊w⌋ : ℤ) : ℚ) * cfg.responseRatio⌋ < cfg.minResponseTokens then
            cfg.minResponseTokens
          else ⌊((max 1 ⌊w⌋ : ℤ) : ℚ) * cfg.responseRatio⌋
        reserve :=
          max 0 (max 1 ⌊w⌋ -
            (⌊((max 1 ⌊w⌋ : ℤ) : ℚ) * cfg.systemPromptRatio⌋ +
              ⌊((max 1 ⌊w⌋ : ℤ) : ℚ) * cfg.bootstrapRatio⌋ +
              (if ⌊((max 1 ⌊w⌋ : ℤ) : ℚ) * cfg.responseRatio⌋ <
                  cfg.minResponseTokens then
                max 0 (⌊((max 1 ⌊w⌋ : ℤ) : ℚ) * cfg.historyRatio⌋ -
                  (cfg.minResponseTokens -
                    ⌊((max 1 ⌊w⌋ : ℤ) : ℚ) * cfg.responseRatio⌋))
              else ⌊((max 1 ⌊w⌋ : ℤ) : ℚ) * cfg.historyRatio⌋) +
              (if ⌊((max 1 ⌊w⌋ : ℤ) : ℚ) * cfg.responseRatio⌋ <
                  cfg.minResponseTokens then
                cfg.minResponseTokens
              else ⌊((max 1 ⌊w⌋ : ℤ) : ℚ) * cfg.responseRatio⌋))) } := rfl

/-- Evaluation of the default budget at the 200 000-token window. -/
lemma computeBudget_default_200000 :
    computeBudget DEFAULT_CONTEXT_BUDGET_CONFIG 200000 =
      { total := 200000, systemPrompt := 30000, bootstrap := 20000,
        history := 90000, response := 40000, reserve := 20000 } := by
  unfold computeBudget DEFAULT_CONTEXT_BUDGET_CONFIG
  norm_num [Int.floor_eq_iff]

/-- Claim C1: after the actual system prompt and bootstrap are rendered, the
history budget is the base history allocation plus the non-negative unused
parts of the system-prompt and bootstrap allocations plus the reserve; for
window 200000 with the default ratios, actual system prompt 20000 and
bootstrap 5000 it is 135000. -/
theorem computeHistoryBudget_reclaims_unused :
    (∀ (cfg : ContextBudgetConfig) (w : ℚ) (usedS usedB : Int),
      computeHistoryBudget cfg usedS usedB (some w) =
        (computeBudget cfg w).history +
          (max 0 ((computeBudget cfg w).systemPrompt - usedS) +
            max 0 ((computeBudget cfg w).bootstrap - usedB)) +
          (computeBudget cfg w).reserve) ∧
    computeHistoryBudget DEFAULT_CONTEXT_BUDGET_CONFIG 20000 5000 (some 200000) =
      135000 := by
  constructor
  · intro cfg w usedS usedB
    rfl
  · simp only [computeHistoryBudget, Option.getD_some]
    rw [computeBudget_default_200000]
    norm_num

/-- Evaluation of the default budget at a 1000-token window: the response
floor forces a deficit of 3896 but history only has 450 to give. -/
lemma computeBudget_default_1000 :
    computeBudget DEFAULT_CONTEXT_BUDGET_CONFIG 1000 =
      { total := 1000, systemPrompt := 150, bootstrap := 100,
        history := 0, response := 4096, reserve := 0 } := by
  unfold computeBudget DEFAULT_CONTEXT_BUDGET_CONFIG
  norm_num [Int.floor_eq_iff]

/-- Claim C2 counterexample: at window 1000 with the default configuration,
`⌊W*r⌋ = 200 < 4096` so the response clamps, but the history allocation
becomes 0 rather than shrinking by exactly the deficit `4096 - 200 = 3896`
(the base history allocation is only 450). -/
theorem computeBudget_deficit_cex :
    ⌊(1000 : ℚ) * DEFAULT_CONTEXT_BUDGET_CONFIG.responseRatio⌋ <
      DEFAULT_CONTEXT_BUDGET_CONFIG.minResponseTokens ∧
    (computeBudget DEFAULT_CONTEXT_BUDGET_CONFIG 1000).response =
      DEFAULT_CONTEXT_BUDGET_CONFIG.minResponseTokens ∧
    (computeBudget DEFAULT_CONTEXT_BUDGET_CONFIG 1000).history ≠
      ⌊(1000 : ℚ) * DEFAULT_CONTEXT_BUDGET_CONFIG.historyRatio⌋ -
        (DEFAULT_CONTEXT_BUDGET_CONFIG.minResponseTokens -
          ⌊(1000 : ℚ) * DEFAULT_CONTEXT_BUDGET_CONFIG.responseRatio⌋) := by
  rw [computeBudget_default_1000]
  unfold DEFAULT_CONTEXT_BUDGET_CONFIG
  norm_num [Int.floor_eq_iff]

/-- Claim C2 (amended): `computeBudget` allocates `S = ⌊W*s⌋`, `B = ⌊W*b⌋`,
`R = max(Rmin, ⌊W*r⌋)`; when `⌊W*r⌋ < Rmin` the response clamps to `Rmin`,
the system-prompt and bootstrap allocations are unchanged, and the history
allocation shrinks by exactly the deficit `Rmin - ⌊W*r⌋` provided the deficit
does not exceed the base history allocation `⌊W*h⌋` (otherwise history clamps
to 0). -/
theorem computeBudget_allocations (cfg : ContextBudgetConfig) (n : ℕ)
    (hn : 1 ≤ n) :
    (computeBudget cfg n).total = n ∧
    (computeBudget cfg n).systemPrompt = ⌊(n : ℚ) * cfg.systemPromptRatio⌋ ∧
    (computeBudget cfg n).bootstrap = ⌊(n : ℚ) * cfg.bootstrapRatio⌋ ∧
    (computeBudget cfg n).response =
      max cfg.minResponseTokens ⌊(n : ℚ) * cfg.responseRatio⌋ ∧
    (⌊(n : ℚ) * cfg.responseRatio⌋ < cfg.minResponseTokens →
      (computeBudget cfg n).history =
        max 0 (⌊(n : ℚ) * cfg.historyRatio⌋ -
          (cfg.minResponseTokens - ⌊(n : ℚ) * cfg.responseRatio⌋)) ∧
      (cfg.minResponseTokens - ⌊(n : ℚ) * cfg.responseRatio⌋ ≤
          ⌊(n : ℚ) * cfg.historyRatio⌋ →
        (computeBudget cfg n).history =
          ⌊(n : ℚ) * cfg.historyRatio⌋ -
            (cfg.minResponseTokens - ⌊(n : ℚ) * cfg.responseRatio⌋))) ∧
    (cfg.minResponseTokens ≤ ⌊(n : ℚ) * cfg.responseRatio⌋ →
      (computeBudget cfg n).history = ⌊(n : ℚ) * cfg.historyRatio⌋) := by
  have ht : (max 1 ⌊((n : ℕ) : ℚ)⌋ : ℤ) = (n : ℤ) := by
    rw [Int.floor_natCast]
    omega
  have hc : (((n : ℤ) : ℚ)) = ((n : ℕ) : ℚ) := by push_cast; ring
  rw [computeBudget_eq, ht, hc]
  refine ⟨rfl, rfl, rfl, ?_, ?_, ?_⟩
  · dsimp only
    rcases lt_or_le (⌊(n : ℚ) * cfg.responseRatio⌋) cfg.minResponseTokens with hr | hr
    · rw [if_pos hr]
      exact (max_eq_left hr.le).symm
    · rw [if_neg (not_lt.mpr hr)]
      exact (max_eq_right hr).symm
  · intro hr
    dsimp only
    rw [if_pos hr]
    refine ⟨rfl, fun hd => ?_⟩
    omega
  · intro hr
    dsimp only
    rw [if_neg (not_lt.mpr hr)]

/-- A budget configuration with `responseRatio = 0.01` (the spec's small-ratio
boundary scenario), otherwise the defaults. -/
def smallResponseConfig : ContextBudgetConfig :=
  { systemPromptRatio := 15 / 100
    bootstrapRatio := 10 / 100
    historyRatio := 45 / 100
    responseRatio := 1 / 100
    minResponseTokens := 4096 }

/-- Claim C2 witness: a concrete window in the clamping regime
(`responseRatio = 0.01`, window 100000): the theorem applies and history
shrinks by exactly the deficit `4096 - 1000 = 3096`. -/
theorem computeBudget_allocations_witness :
    1 ≤ 100000 ∧
    (computeBudget smallResponseConfig ((100000 : ℕ) : ℚ)).history = 41904 := by
  have h := computeBudget_allocations smallResponseConfig 100000 (by norm_num)
  have hr : ⌊((100000 : ℕ) : ℚ) * smallResponseConfig.responseRatio⌋ = 1000 := by
    unfold smallResponseConfig
    norm_num [Int.floor_eq_iff]
  have hh : ⌊((100000 : ℕ) : ℚ) * smallResponseConfig.historyRatio⌋ = 45000 := by
    unfold smallResponseConfig
    norm_num [Int.floor_eq_iff]
  refine ⟨by norm_num, ?_⟩
  have h5 := (h.2.2.2.2.1 (by rw [hr]; norm_num [smallResponseConfig])).2
    (by rw [hr, hh]; norm_num [smallResponseConfig])
  rw [h5, hr, hh]
  norm_num [smallResponseConfig]

/-- Claim C4: when rolling summarisation triggers (and there are older
messages to summarise) but the staged summariser call fails, the build still
resolves: the recent window is returned unchanged, the summary text is the
pre-existing summary verbatim (empty if none), `didSummarize` is false and
`summarizedMessageCount` is 0. -/
theorem buildContextWithSummary_failure_keeps_context
    (cfg : RollingSummaryConfig) (messages : List Msg) (budget : Int)
    (existingSummary : Option String)
    (h1 : shouldSummarize cfg messages (some budget) = true)
    (h2 : (splitByTurns cfg messages).2 ≠ []) :
    buildContextWithSummary cfg messages budget existingSummary none =
      { recentMessages := (splitByTurns cfg messages).1
        summaryText := existingSummary.getD ""
        totalTokens := sumTokens (splitByTurns cfg messages).1 +
          estimateTextTokens (existingSummary.getD "")
        didSummarize := false
        summarizedMessageCount := 0 } := by
  have h2l : (splitByTurns cfg messages).2.length ≠ 0 := by
    simpa [List.length_eq_zero] using h2
  simp only [buildContextWithSummary, h1, Bool.true_eq_false, if_false, if_neg h2l]

/-- Claim C4 witness: a concrete enabled configuration over threshold with a
non-empty older segment and a failing summariser keeps the recent window and
the existing summary. -/
theorem buildContextWithSummary_failure_witness :
    shouldSummarize ⟨true, 1, 2000, 10⟩
      [⟨"user", 100⟩, ⟨"assistant", 100⟩, ⟨"user", 100⟩] (some 1000) = true ∧
    (splitByTurns ⟨true, 1, 2000, 10⟩
      [⟨"user", 100⟩, ⟨"assistant", 100⟩, ⟨"user", 100⟩]).2 ≠ [] ∧
    buildContextWithSummary ⟨true, 1, 2000, 10⟩
      [⟨"user", 100⟩, ⟨"assistant", 100⟩, ⟨"user", 100⟩] 1000 (some "old") none =
      { recentMessages := [⟨"assistant", 100⟩, ⟨"user", 100⟩]
        summaryText := "old"
        totalTokens := 201
        didSummarize := false
        summarizedMessageCount := 0 } :=
  ⟨by decide, by decide,
    (buildContextWithSummary_failure_keeps_context ⟨true, 1, 2000, 10⟩
      [⟨"user", 100⟩, ⟨"assistant", 100⟩, ⟨"user", 100⟩] 1000 (some "old")
      (by decide) (by decide)).trans (by decide)⟩

/-- Claim C9: the DM history-limit lookup yields a limit only for `dm`-kind
session keys (`group`/`channel` keys give none whatever the configuration);
on `dm` keys a per-user `dms.<id>.historyLimit` override takes precedence
over, and its absence falls back to, the provider-wide `dmHistoryLimit`. -/
theorem getDmHistoryLimit_dm_only_and_override :
    (∀ (sessionKey : List Char) (config : Option OpenClawConfig),
      parsedKind sessionKey ≠ some "dm".toList →
      getDmHistoryLimitFromSessionKey sessionKey config = none) ∧
    (∀ (sessionKey : List Char) (cfg : OpenClawConfig)
      (pc : ProviderChannelConfig) (p0 : List Char) (entry : DmConfigEntry)
      (n : Int),
      (providerPartsOf sessionKey).head? = some p0 →
      parsedKind sessionKey = some "dm".toList →
      resolveProviderConfig cfg (p0.map Char.toLower) = some pc →
      parsedUserId sessionKey ≠ [] →
      dmsLookup pc (parsedUserId sessionKey) = some entry →
      entry.historyLimit = some n →
      getDmHistoryLimitFromSessionKey sessionKey (some cfg) = some n) ∧
    (∀ (sessionKey : List Char) (cfg : OpenClawConfig)
      (pc : ProviderChannelConfig) (p0 : List Char),
      (providerPartsOf sessionKey).head? = some p0 →
      parsedKind sessionKey = some "dm".toList →
      resolveProviderConfig cfg (p0.map Char.toLower) = some pc →
      dmsLookup pc (parsedUserId sessionKey) = none →
      getDmHistoryLimitFromSessionKey sessionKey (some cfg) =
        pc.dmHistoryLimit) := by
  have hempty : providerPartsOf ([] : List Char) = [] := by decide
  refine ⟨?_, ?_, ?_⟩
  · intro k config hk
    cases config with
    | none => rfl
    | some c =>
      simp only [getDmHistoryLimitFromSessionKey]
      by_cases hke : k = []
      · simp [hke]
      · rw [if_neg hke]
        cases hh : (providerPartsOf k).head? with
        | none => rfl
        | some p0 =>
          simp only [hh, hk, ne_eq, not_false_eq_true, if_true]
  · intro k cfg pc p0 entry n hp0 hkind hpc hu hdms hlim
    have hke : k ≠ [] := by
      intro hke
      rw [hke, hempty] at hp0
      exact Option.noConfusion hp0
    simp only [getDmHistoryLimitFromSessionKey]
    rw [if_neg hke, hp0]
    simp only [hkind, ne_eq, not_true_eq_false, if_false, hpc]
    simp only [getLimit, if_pos hu, hdms, hlim]
  · intro k cfg pc p0 hp0 hkind hpc hdms
    have hke : k ≠ [] := by
      intro hke
      rw [hke, hempty] at hp0
      exact Option.noConfusion hp0
    simp only [getDmHistoryLimitFromSessionKey]
    rw [if_neg hke, hp0]
    simp only [hkind, ne_eq, not_true_eq_false, if_false, hpc]
    by_cases hu : parsedUserId k ≠ []
    · simp only [getLimit, if_pos hu, hdms]
    · simp only [getLimit, if_neg hu]

/-- Claim C9 witness: a `group` key returns no limit; a full
`agent:main:telegram:dm:u42` key picks the per-user override 7 over the
provider default 3; a `dm` key with no per-user entry falls back to 3. -/
theorem getDmHistoryLimit_dm_only_witness :
    getDmHistoryLimitFromSessionKey "telegram:group:u42".toList
      (some ⟨[("telegram".toList,
        ⟨some 3, [("u42".toList, ⟨some 7⟩)]⟩)]⟩) = none ∧
    getDmHistoryLimitFromSessionKey "agent:main:telegram:dm:u42".toList
      (some ⟨[("telegram".toList,
        ⟨some 3, [("u42".toList, ⟨some 7⟩)]⟩)]⟩) = some 7 ∧
    getDmHistoryLimitFromSessionKey "telegram:dm:zz".toList
      (some ⟨[("telegram".toList,
        ⟨some 3, [("u42".toList, ⟨some 7⟩)]⟩)]⟩) = some 3 :=
  ⟨getDmHistoryLimit_dm_only_and_override.1 _ _ (by decide),
    getDmHistoryLimit_dm_only_and_override.2.1 _ _
      ⟨some 3, [("u42".toList, ⟨some 7⟩)]⟩ "telegram".toList ⟨some 7⟩ 7
      (by decide) (by decide) (by decide) (by decide) (by decide) (by decide),
    (getDmHistoryLimit_dm_only_and_override.2.2 _ _
      ⟨some 3, [("u42".toList, ⟨some 7⟩)]⟩ "telegram".toList
      (by decide) (by decide) (by decide) (by decide)).trans (by decide)⟩

/-- If the forward scan finds a user message at offset `j`, the list dropped
to `j` starts with a user message. -/
lemma findUserIdx_drop_head : ∀ (l : List Msg) (j : Nat),
    findUserIdx l = some j → ((l.drop j).head?).map Msg.role = some "user"
  | [], j, h => Option.noConfusion h
  | msg :: rest, j, h => by
    by_cases hr : msg.role = "user"
    · simp only [findUserIdx, if_pos hr, Option.some.injEq] at h
      subst h
      simp [hr]
    · simp only [findUserIdx, if_neg hr] at h
      cases hfind : findUserIdx rest with
      | none => rw [hfind] at h; simp at h
      | some j' =>
        rw [hfind] at h
        simp only [Option.map_some', Option.some.injEq] at h
        subst h
        simpa using findUserIdx_drop_head rest j' hfind

/-- Claim C7: whenever token-trimming actually trims (non-empty list, positive
budget, total above budget) and some message at or after the computed drop
index has role `user`, the surviving history starts with a `user` message:
the drop boundary is advanced to the next user turn. -/
theorem truncateMessagesToFit_starts_on_user (messages : List Msg) (b : Int)
    (h1 : messages ≠ []) (h2 : 0 < b)
    (h3 : b < (sumTokens messages : Int))
    (h4 : ∃ j, findUserIdx (messages.drop (dropCountFor (messages.map Msg.tokens)
      ((sumTokens messages : Int) - b))) = some j) :
    ((truncateMessagesToFit messages b).head?).map Msg.role = some "user" := by
  obtain ⟨j, hj⟩ := h4
  simp only [sumTokens] at h3 hj
  have hg1 : ¬(messages.length = 0 ∨ b ≤ 0) := by
    push_neg
    exact ⟨by simpa [List.length_eq_zero] using h1, by omega⟩
  have hg2 : ¬(((messages.map Msg.tokens).sum : Int) ≤ b) := not_le.mpr h3
  simp only [truncateMessagesToFit, if_neg hg1, if_neg hg2, adjustDropCount, hj]
  rw [← List.drop_drop]
  exact findUserIdx_drop_head _ _ hj

/-- Every chunk packed by the retrieval loop takes its score from one of the
input results. -/
lemma packChunks_scores (maxChunks : Nat) (budget : Int) :
    ∀ (rs : List MemorySearchResult) (count total : Nat)
      (c : RetrievedContext), c ∈ (packChunks maxChunks budget rs count total).1 →
      ∃ r ∈ rs, c.score = r.score
  | [], _, _, c, hc => by simp [packChunks] at hc
  | r :: rest, count, total, c, hc => by
    simp only [packChunks] at hc
    by_cases h1 : maxChunks ≤ count
    · rw [if_pos h1] at hc
      simp at hc
    · rw [if_neg h1] at hc
      by_cases h2 : budget < ((total + estimateTextTokens r.snippet : Nat) : Int)
      · rw [if_pos h2] at hc
        by_cases h3 : budget - (total : Int) < 100
        · rw [if_pos h3] at hc
          simp at hc
        · rw [if_neg h3] at hc
          simp only [List.mem_singleton] at hc
          exact ⟨r, List.mem_cons_self r rest, by rw [hc]; rfl⟩
      · rw [if_neg h2] at hc
        simp only [List.mem_cons] at hc
        rcases hc with hc | hc
        · exact ⟨r, List.mem_cons_self r rest, by rw [hc]; rfl⟩
        · obtain ⟨r', hr', hs⟩ :=
            packChunks_scores maxChunks budget rest (count + 1)
              (total + estimateTextTokens r.snippet) c hc
          exact ⟨r', List.mem_cons_of_mem r hr', hs⟩

/-- The retrieval loop never packs more than `maxChunks - count` further
chunks. -/
lemma packChunks_length (maxChunks : Nat) (budget : Int) :
    ∀ (rs : List MemorySearchResult) (count total : Nat),
      (packChunks maxChunks budget rs count total).1.length ≤ maxChunks - count
  | [], _, _ => by simp [packChunks]
  | r :: rest, count, total => by
    simp only [packChunks]
    by_cases h1 : maxChunks ≤ count
    · simp [if_pos h1]
    · rw [if_neg h1]
      by_cases h2 : budget < ((total + estimateTextTokens r.snippet : Nat) : Int)
      · rw [if_pos h2]
        by_cases h3 : budget - (total : Int) < 100
        · simp [if_pos h3]
        · rw [if_neg h3]
          simp only [List.length_singleton]
          omega
      · rw [if_neg h2]
        simp only [List.length_cons]
        have := packChunks_length maxChunks budget rest (count + 1)
          (total + estimateTextTokens r.snippet)
        omega

/-- Token estimate of a truncated snippet: at most one over the available
token budget (the appended ellipsis can push the 4-chars-per-token ceiling
one past it). -/
lemma truncateToTokens_tokens_le (text : String) (a : Int) (ha : 0 < a) :
    estimateTextTokens (truncateToTokens text a) ≤ a.toNat + 1 := by
  have hmk : ∀ l : List Char, l.length ≤ 4 * a.toNat + 3 →
      estimateTextTokens (String.mk l) ≤ a.toNat + 1 := by
    intro l hl
    show (List.length l + 3) / 4 ≤ a.toNat + 1
    omega
  have hlen : ∀ s : String, s.length = s.toList.length := fun _ => rfl
  unfold truncateToTokens
  by_cases h1 : ((text.toList.length : Int) ≤ a * 4)
  · rw [if_pos h1]
    show (text.length + 3) / 4 ≤ a.toNat + 1
    rw [hlen]
    omega
  · rw [if_neg h1]
    have htr : (text.toList.take (a * 4).toNat).length ≤ 4 * a.toNat := by
      rw [List.length_take]
      omega
    by_cases h2 : a * 4 <
        2 * max (lastIndexOfChar (text.toList.take (a * 4).toNat) '.')
          (max (lastIndexOfChar (text.toList.take (a * 4).toNat) '\n')
            (lastIndexOfChar (text.toList.take (a * 4).toNat) ' '))
    · rw [if_pos h2]
      refine hmk _ ?_
      rw [List.length_append, List.length_take]
      have : ("...".toList).length = 3 := rfl
      omega
    · rw [if_neg h2]
      refine hmk _ ?_
      rw [List.length_append]
      have : ("...".toList).length = 3 := rfl
      omega

/-- The packed token total never exceeds the budget by more than one token,
and exceeds it at all only through a truncated final chunk. -/
lemma packChunks_total_le (maxChunks : Nat) (budget : Int) :
    ∀ (rs : List MemorySearchResult) (count total : Nat),
      (total : Int) ≤ budget →
      ((packChunks maxChunks budget rs count total).2 : Int) ≤ budget + 1
  | [], _, total, h => by
    simp only [packChunks]
    omega
  | r :: rest, count, total, h => by
    simp only [packChunks]
    by_cases h1 : maxChunks ≤ count
    · rw [if_pos h1]
      simpa using by omega
    · rw [if_neg h1]
      by_cases h2 : budget < ((total + estimateTextTokens r.snippet : Nat) : Int)
      · rw [if_pos h2]
        by_cases h3 : budget - (total : Int) < 100
        · rw [if_pos h3]
          simpa using by omega
        · rw [if_neg h3]
          have hb : (0 : Int) < budget - (total : Int) := by omega
          have := truncateToTokens_tokens_le r.snippet (budget - (total : Int)) hb
          simp only
          push_cast
          omega
      · rw [if_neg h2]
        exact packChunks_total_le maxChunks budget rest (count + 1)
          (total + estimateTextTokens r.snippet) (by omega)

/-- Claim C6 (amended): for enabled retrieval with positive budget, every
returned chunk scores at least `minRelevanceScore`, at most
`maxRetrievedChunks` chunks are returned, the reported `totalTokens` never
exceeds `budgetTokens + 1` (a truncated final chunk's re-estimated token
count can exceed the remaining budget by exactly one because of the appended
ellipsis), and a final chunk that would overflow the budget is truncated only
when at least 100 tokens of budget remain, otherwise dropped. -/
theorem retrieve_filters_caps_and_packs (cfg : SemanticHistoryConfig)
    (prompt : String) (results : List MemorySearchResult) (b : Int)
    (h1 : cfg.enabled = true) (h2 : 0 < b) :
    (∀ c ∈ (retrieve cfg prompt (some results) b).contexts,
      cfg.minRelevanceScore ≤ c.score) ∧
    (retrieve cfg prompt (some results) b).contexts.length ≤
      cfg.maxRetrievedChunks ∧
    ((retrieve cfg prompt (some results) b).totalTokens : Int) ≤ b + 1 ∧
    (∀ (r : MemorySearchResult) (rest : List MemorySearchResult)
      (count total : Nat),
      count < cfg.maxRetrievedChunks →
      (b : Int) < ((total + estimateTextTokens r.snippet : Nat) : Int) →
      (b - (total : Int) < 100 →
        packChunks cfg.maxRetrievedChunks b (r :: rest) count total =
          ([], total)) ∧
      (100 ≤ b - (total : Int) →
        packChunks cfg.maxRetrievedChunks b (r :: rest) count total =
          ([mkContext r (truncateToTokens r.snippet (b - (total : Int)))
              (estimateTextTokens (truncateToTokens r.snippet (b - (total : Int))))],
            total +
              estimateTextTokens (truncateToTokens r.snippet (b - (total : Int)))))) := by
  have hpack : ∀ (r : MemorySearchResult) (rest : List MemorySearchResult)
      (count total : Nat),
      count < cfg.maxRetrievedChunks →
      (b : Int) < ((total + estimateTextTokens r.snippet : Nat) : Int) →
      (b - (total : Int) < 100 →
        packChunks cfg.maxRetrievedChunks b (r :: rest) count total =
          ([], total)) ∧
      (100 ≤ b - (total : Int) →
        packChunks cfg.maxRetrievedChunks b (r :: rest) count total =
          ([mkContext r (truncateToTokens r.snippet (b - (total : Int)))
              (estimateTextTokens (truncateToTokens r.snippet (b - (total : Int))))],
            total +
              estimateTextTokens (truncateToTokens r.snippet (b - (total : Int))))) := by
    intro r rest count total hcount hover
    constructor
    · intro hsmall
      simp only [packChunks, if_neg (not_le.mpr hcount), if_pos hover,
        if_pos hsmall]
    · intro hbig
      simp only [packChunks, if_neg (not_le.mpr hcount), if_pos hover,
        if_neg (not_lt.mpr hbig)]
  by_cases hp : trimsToEmpty prompt = true
  · refine ⟨?_, ?_, ?_, hpack⟩
    · intro c hc
      simp only [retrieve, h1, Bool.true_eq_false, if_false, hp, true_or,
        if_true] at hc
      simp at hc
    · simp only [retrieve, h1, Bool.true_eq_false, if_false, hp, true_or,
        if_true]
      simp
    · simp only [retrieve, h1, Bool.true_eq_false, if_false, hp, true_or,
        if_true]
      simp only [Nat.cast_zero]
      omega
  · have hguard : ¬(trimsToEmpty prompt = true ∨ b ≤ 0) := by
      push_neg
      exact ⟨hp, by omega⟩
    refine ⟨?_, ?_, ?_, hpack⟩
    · intro c hc
      simp only [retrieve, h1, Bool.true_eq_false, if_false,
        if_neg hguard] at hc
      obtain ⟨r, hr, hs⟩ := packChunks_scores cfg.maxRetrievedChunks b _ 0 0 c hc
      rw [hs]
      have := (List.mem_filter.mp hr).2
      simpa using this
    · simp only [retrieve, h1, Bool.true_eq_false, if_false, if_neg hguard]
      have := packChunks_length cfg.maxRetrievedChunks b
        (results.filter (fun r => cfg.minRelevanceScore ≤ r.score)) 0 0
      omega
    · simp only [retrieve, h1, Bool.true_eq_false, if_false, if_neg hguard]
      exact packChunks_total_le cfg.maxRetrievedChunks b _ 0 0 (by omega)

set_option maxRecDepth 100000 in
/-- Claim C6 counterexample: with a 100-token budget and one relevant
401-character unbroken snippet, the final chunk is truncated (100 tokens
remain) yet the reported `totalTokens` is 101, exceeding the budget. -/
theorem retrieve_total_exceeds_budget_cex :
    (retrieve ⟨true, 5, 0⟩ "q"
      (some [⟨"p", String.mk (List.replicate 401 'a'), 1, 1, 1⟩])
      100).totalTokens = 101 ∧
    ¬ (((retrieve ⟨true, 5, 0⟩ "q"
      (some [⟨"p", String.mk (List.replicate 401 'a'), 1, 1, 1⟩])
      100).totalTokens : Int) ≤ 100) := by
  constructor
  · decide
  · decide

/-- Claim C6 witness: a concrete enabled retrieval within budget: one of two
results passes the 0.7 score filter, one chunk is returned, and its tokens
fit the budget plus one. -/
theorem retrieve_filters_caps_witness :
    (⟨true, 5, 1⟩ : SemanticHistoryConfig).enabled = true ∧
    (0 : Int) < 1000 ∧
    (∀ c ∈ (retrieve ⟨true, 5, 1⟩ "hello"
      (some [⟨"a.md", "Content A", 1, 1, 1⟩, ⟨"b.md", "Content B", 0, 1, 1⟩])
      1000).contexts, (1 : ℚ) ≤ c.score) ∧
    ((retrieve ⟨true, 5, 1⟩ "hello"
      (some [⟨"a.md", "Content A", 1, 1, 1⟩, ⟨"b.md", "Content B", 0, 1, 1⟩])
      1000).totalTokens : Int) ≤ 1001 :=
  ⟨rfl, by decide,
    (retrieve_filters_caps_and_packs ⟨true, 5, 1⟩ "hello"
      [⟨"a.md", "Content A", 1, 1, 1⟩, ⟨"b.md", "Content B", 0, 1, 1⟩] 1000
      rfl (by decide)).1,
    (retrieve_filters_caps_and_packs ⟨true, 5, 1⟩ "hello"
      [⟨"a.md", "Content A", 1, 1, 1⟩, ⟨"b.md", "Content B", 0, 1, 1⟩] 1000
      rfl (by decide)).2.2.1⟩

/-- A user position is in range. -/
lemma IsUserAt_lt {messages : List Msg} {i : Nat} (h : IsUserAt messages i) :
    i < messages.length := by
  by_cases hlt : i < messages.length
  · exact hlt
  · unfold IsUserAt at h
    rw [List.getElem?_eq_none (not_lt.mp hlt)] at h
    exact Option.noConfusion h

/-- Being a user message at an in-range index, through `getElem`. -/
lemma IsUserAt_iff_getElem {messages : List Msg} {i : Nat}
    (h : i < messages.length) :
    IsUserAt messages i ↔ (messages[i]).role = "user" := by
  unfold IsUserAt
  rw [List.getElem?_eq_getElem h]
  simp

/-- `countUsers` on a cons cell. -/
lemma countUsers_cons (msg : Msg) (rest : List Msg) :
    countUsers (msg :: rest) =
      (if msg.role = "user" then 1 else 0) + countUsers rest := rfl

/-- `countUsers` distributes over append. -/
lemma countUsers_append : ∀ (a b : List Msg),
    countUsers (a ++ b) = countUsers a + countUsers b
  | [], b => by simp [countUsers]
  | x :: a, b => by
    simp only [List.cons_append, countUsers_cons, countUsers_append a b]
    omega

/-- Peeling one element off a dropped suffix. -/
lemma countUsers_drop_succ (messages : List Msg) (i : Nat)
    (h : i < messages.length) :
    countUsers (messages.drop i) =
      (if IsUserAt messages i then 1 else 0) + countUsers (messages.drop (i + 1)) := by
  rw [List.drop_eq_getElem_cons h, countUsers_cons]
  congr 1
  by_cases hu : IsUserAt messages i
  · rw [if_pos hu, if_pos ((IsUserAt_iff_getElem h).mp hu)]
  · rw [if_neg hu, if_neg (fun hr => hu ((IsUserAt_iff_getElem h).mpr hr))]

/-- Extending a taken prefix by one element. -/
lemma countUsers_take_succ (messages : List Msg) (i : Nat)
    (h : i < messages.length) :
    countUsers (messages.take (i + 1)) =
      countUsers (messages.take i) + (if IsUserAt messages i then 1 else 0) := by
  rw [List.take_succ, List.getElem?_eq_getElem h]
  simp only [Option.toList_some, countUsers_append]
  congr 1
  simp only [countUsers_cons, countUsers]
  by_cases hu : IsUserAt messages i
  · rw [if_pos hu, if_pos ((IsUserAt_iff_getElem h).mp hu)]
  · rw [if_neg hu, if_neg (fun hr => hu ((IsUserAt_iff_getElem h).mpr hr))]

/-- If the running user count of the turn-limit loop can never exceed the
limit, the loop finishes and returns the whole list. -/
lemma lhtAux_no_break (messages : List Msg) (limit : Nat) :
    ∀ (j uc lui : Nat), j < messages.length →
      uc + countUsers (messages.take (j + 1)) ≤ limit →
      lhtAux messages limit j uc lui = messages := by
  intro j
  induction j with
  | zero =>
    intro uc lui hlen hle
    rw [countUsers_take_succ messages 0 hlen] at hle
    have hz : countUsers (messages.take 0) = 0 := rfl
    by_cases hu : IsUserAt messages 0
    · rw [if_pos hu] at hle
      have hne : ¬(IsUserAt messages 0 ∧ limit < uc + 1) := by
        rintro ⟨-, hlt⟩
        omega
      simp only [lhtAux]
      rw [if_neg hne]
    · have hne : ¬(IsUserAt messages 0 ∧ limit < uc + 1) := by
        rintro ⟨hand, -⟩
        exact hu hand
      simp only [lhtAux]
      rw [if_neg hne]
  | succ j ih =>
    intro uc lui hlen hle
    have hlen' : j < messages.length := by omega
    rw [countUsers_take_succ messages (j + 1) hlen] at hle
    by_cases hu : IsUserAt messages (j + 1)
    · rw [if_pos hu] at hle
      have hnb : ¬(limit < uc + 1) := by omega
      simp only [lhtAux]
      rw [if_pos hu, if_neg hnb]
      exact ih (uc + 1) (j + 1) hlen' (by omega)
    · rw [if_neg hu] at hle
      simp only [lhtAux]
      rw [if_neg hu]
      exact ih uc lui hlen' (by omega)

/-- If there are more than `limit` user messages left to scan, the turn-limit
loop breaks on the suffix that starts at a user message and contains exactly
`limit` user messages. -/
lemma lhtAux_break (messages : List Msg) (limit : Nat) (hlimit : 1 ≤ limit) :
    ∀ (j uc lui : Nat), j < messages.length →
      uc = countUsers (messages.drop (j + 1)) →
      uc ≤ limit →
      (1 ≤ uc → lui < messages.length ∧ IsUserAt messages lui ∧
        countUsers (messages.drop lui) = uc) →
      limit < uc + countUsers (messages.take (j + 1)) →
      ∃ idx, idx < messages.length ∧ IsUserAt messages idx ∧
        countUsers (messages.drop idx) = limit ∧
        lhtAux messages limit j uc lui = messages.drop idx := by
  intro j
  induction j with
  | zero =>
    intro uc lui hlen huc hule hinv hcond
    rw [countUsers_take_succ messages 0 hlen] at hcond
    have hz : countUsers (messages.take 0) = 0 := rfl
    by_cases hu : IsUserAt messages 0
    · rw [if_pos hu] at hcond
      have huceq : uc = limit := by omega
      obtain ⟨hlt, huser, hcnt⟩ := hinv (by omega)
      refine ⟨lui, hlt, huser, ?_, ?_⟩
      · rw [hcnt, huceq]
      · have hif : IsUserAt messages 0 ∧ limit < uc + 1 := ⟨hu, by omega⟩
        simp only [lhtAux]
        rw [if_pos hif]
    · rw [if_neg hu] at hcond
      omega
  | succ j ih =>
    intro uc lui hlen huc hule hinv hcond
    have hlen' : j < messages.length := by omega
    rw [countUsers_take_succ messages (j + 1) hlen] at hcond
    by_cases hu : IsUserAt messages (j + 1)
    · rw [if_pos hu] at hcond
      by_cases hlt : limit < uc + 1
      · have huceq : uc = limit := by omega
        obtain ⟨hlt2, huser, hcnt⟩ := hinv (by omega)
        refine ⟨lui, hlt2, huser, ?_, ?_⟩
        · rw [hcnt, huceq]
        · simp only [lhtAux]
          rw [if_pos hu, if_pos hlt]
      · have hdrop : countUsers (messages.drop (j + 1)) =
            1 + countUsers (messages.drop (j + 1 + 1)) := by
          rw [countUsers_drop_succ messages (j + 1) hlen, if_pos hu]
        obtain ⟨idx, h1, h2, h3, h4⟩ := ih (uc + 1) (j + 1) hlen'
          (by omega) (by omega)
          (fun _ => ⟨hlen, hu, by omega⟩) (by omega)
        refine ⟨idx, h1, h2, h3, ?_⟩
        rw [← h4]
        simp only [lhtAux]
        rw [if_pos hu, if_neg hlt]
    · rw [if_neg hu] at hcond
      have hdrop : countUsers (messages.drop (j + 1)) =
          countUsers (messages.drop (j + 1 + 1)) := by
        rw [countUsers_drop_succ messages (j + 1) hlen, if_neg hu, zero_add]
      obtain ⟨idx, h1, h2, h3, h4⟩ := ih uc lui hlen'
        (by omega) hule hinv (by omega)
      refine ⟨idx, h1, h2, h3, ?_⟩
      rw [← h4]
      simp only [lhtAux]
      rw [if_neg hu]

/-- Two suffixes that both start at a user message and contain the same
number of user messages coincide. -/
lemma drop_user_count_unique (messages : List Msg) :
    ∀ (j k : Nat), IsUserAt messages j → IsUserAt messages k →
      countUsers (messages.drop j) = countUsers (messages.drop k) →
      messages.drop j = messages.drop k := by
  have key : ∀ (j k : Nat), j ≤ k → IsUserAt messages j → IsUserAt messages k →
      countUsers (messages.drop j) = countUsers (messages.drop k) →
      messages.drop j = messages.drop k := by
    intro j k hjk huj huk hcnt
    rcases Nat.eq_or_lt_of_le hjk with heq | hlt
    · rw [heq]
    · exfalso
      have hjlen := IsUserAt_lt huj
      have hsplit : messages.drop j =
          (messages.drop j).take (k - j) ++ messages.drop k := by
        conv_lhs => rw [← List.take_append_drop (k - j) (messages.drop j)]
        rw [List.drop_drop]
        congr 2
        omega
      have hcz : countUsers ((messages.drop j).take (k - j)) = 0 := by
        rw [hsplit, countUsers_append] at hcnt
        omega
      have hhead : messages.drop j =
          messages[j] :: messages.drop (j + 1) :=
        List.drop_eq_getElem_cons hjlen
      have hkj : 1 ≤ k - j := by omega
      have : (messages.drop j).take (k - j) =
          messages[j] :: (messages.drop (j + 1)).take (k - j - 1) := by
        rw [hhead]
        cases hkj' : k - j with
        | zero => omega
        | succ d =>
          simp only [List.take_succ_cons]
          simp
      rw [this, countUsers_cons,
        if_pos ((IsUserAt_iff_getElem hjlen).mp huj)] at hcz
      omega
  intro j k huj huk hcnt
  rcases le_total j k with h | h
  · exact key j k h huj huk hcnt
  · exact (key k j h huk huj hcnt.symm).symm

/-- Case analysis of `limitHistoryTurns` for a positive integer limit: a list
with at most `limit` user messages is unchanged; one with more is cut to a
suffix that starts at a user message and contains exactly `limit` users. -/
lemma limitHistoryTurns_cases (messages : List Msg) (l : Int) (hl : 0 < l) :
    (countUsers messages ≤ l.toNat →
      limitHistoryTurns messages (some l) = messages) ∧
    (l.toNat < countUsers messages →
      ∃ j, j < messages.length ∧
        limitHistoryTurns messages (some l) = messages.drop j ∧
        IsUserAt messages j ∧
        countUsers (messages.drop j) = l.toNat) := by
  have hN : 0 < l.toNat := by omega
  constructor
  · intro hle
    by_cases hlen : messages.length = 0
    · simp [limitHistoryTurns, hlen]
    · have hguard : ¬(l ≤ 0 ∨ messages.length = 0) := by
        rintro (h | h)
        · omega
        · exact hlen h
      simp only [limitHistoryTurns, if_neg hguard]
      refine lhtAux_no_break messages l.toNat (messages.length - 1) 0
        messages.length (by omega) ?_
      rw [show messages.length - 1 + 1 = messages.length by omega,
        List.take_length]
      omega
  · intro hgt
    have hlen : messages.length ≠ 0 := by
      intro hlen
      rw [List.length_eq_zero] at hlen
      subst hlen
      simp [countUsers] at hgt
    have hguard : ¬(l ≤ 0 ∨ messages.length = 0) := by
      rintro (h | h)
      · omega
      · exact hlen h
    simp only [limitHistoryTurns, if_neg hguard]
    obtain ⟨idx, h1, h2, h3, h4⟩ := lhtAux_break messages l.toNat hN
      (messages.length - 1) 0 messages.length (by omega)
      (by rw [show messages.length - 1 + 1 = messages.length by omega,
        List.drop_length]; rfl)
      (by omega)
      (fun h => absurd h (by omega))
      (by rw [show messages.length - 1 + 1 = messages.length by omega,
        List.take_length]; omega)
    exact ⟨idx, h1, h4, h2, h3⟩

/-- Claim C5: with a positive limit `N`, a list with at most `N` user
messages is returned unchanged, and a list with more than `N` user messages
is cut to exactly the contiguous suffix starting at the `N`-th-from-last user
message: the result is a suffix that starts with a user message, contains
exactly `N` user messages, and any suffix with those two properties is it. -/
theorem limitHistoryTurns_spec (messages : List Msg) (N : Nat) (hN : 0 < N) :
    (countUsers messages ≤ N →
      limitHistoryTurns messages (some (N : Int)) = messages) ∧
    (N < countUsers messages →
      ∃ j, j < messages.length ∧
        limitHistoryTurns messages (some (N : Int)) = messages.drop j ∧
        IsUserAt messages j ∧
        countUsers (messages.drop j) = N ∧
        ∀ k, IsUserAt messages k → countUsers (messages.drop k) = N →
          messages.drop k = messages.drop j) := by
  have htn : (N : Int).toNat = N := Int.toNat_natCast N
  have hcases := limitHistoryTurns_cases messages (N : Int) (by omega)
  rw [htn] at hcases
  refine ⟨hcases.1, fun hgt => ?_⟩
  obtain ⟨j, h1, h2, h3, h4⟩ := hcases.2 hgt
  exact ⟨j, h1, h2, h3, h4,
    fun k hk1 hk2 => drop_user_count_unique messages k j hk1 h3
      (hk2.trans h4.symm)⟩

/-- Claim C5 witness: five user turns interleaved with assistant turns and
limit 3: the result is the suffix from the 3rd-from-last user message. -/
theorem limitHistoryTurns_spec_witness :
    0 < 3 ∧
    3 < countUsers [⟨"user", 1⟩, ⟨"assistant", 1⟩, ⟨"user", 2⟩, ⟨"assistant", 2⟩,
      ⟨"user", 3⟩, ⟨"assistant", 3⟩, ⟨"user", 4⟩, ⟨"assistant", 4⟩,
      ⟨"user", 5⟩, ⟨"assistant", 5⟩] ∧
    (∃ j, j < ([⟨"user", 1⟩, ⟨"assistant", 1⟩, ⟨"user", 2⟩, ⟨"assistant", 2⟩,
        ⟨"user", 3⟩, ⟨"assistant", 3⟩, ⟨"user", 4⟩, ⟨"assistant", 4⟩,
        ⟨"user", 5⟩, ⟨"assistant", 5⟩] : List Msg).length ∧
      limitHistoryTurns [⟨"user", 1⟩, ⟨"assistant", 1⟩, ⟨"user", 2⟩,
        ⟨"assistant", 2⟩, ⟨"user", 3⟩, ⟨"assistant", 3⟩, ⟨"user", 4⟩,
        ⟨"assistant", 4⟩, ⟨"user", 5⟩, ⟨"assistant", 5⟩]
        (some ((3 : ℕ) : Int)) =
        ([⟨"user", 1⟩, ⟨"assistant", 1⟩, ⟨"user", 2⟩, ⟨"assistant", 2⟩,
          ⟨"user", 3⟩, ⟨"assistant", 3⟩, ⟨"user", 4⟩, ⟨"assistant", 4⟩,
          ⟨"user", 5⟩, ⟨"assistant", 5⟩] : List Msg).drop j ∧
      IsUserAt [⟨"user", 1⟩, ⟨"assistant", 1⟩, ⟨"user", 2⟩, ⟨"assistant", 2⟩,
        ⟨"user", 3⟩, ⟨"assistant", 3⟩, ⟨"user", 4⟩, ⟨"assistant", 4⟩,
        ⟨"user", 5⟩, ⟨"assistant", 5⟩] j ∧
      countUsers (([⟨"user", 1⟩, ⟨"assistant", 1⟩, ⟨"user", 2⟩,
        ⟨"assistant", 2⟩, ⟨"user", 3⟩, ⟨"assistant", 3⟩, ⟨"user", 4⟩,
        ⟨"assistant", 4⟩, ⟨"user", 5⟩, ⟨"assistant", 5⟩] : List Msg).drop j) = 3 ∧
      ∀ k, IsUserAt [⟨"user", 1⟩, ⟨"assistant", 1⟩, ⟨"user", 2⟩,
          ⟨"assistant", 2⟩, ⟨"user", 3⟩, ⟨"assistant", 3⟩, ⟨"user", 4⟩,
          ⟨"assistant", 4⟩, ⟨"user", 5⟩, ⟨"assistant", 5⟩] k →
        countUsers (([⟨"user", 1⟩, ⟨"assistant", 1⟩, ⟨"user", 2⟩,
          ⟨"assistant", 2⟩, ⟨"user", 3⟩, ⟨"assistant", 3⟩, ⟨"user", 4⟩,
          ⟨"assistant", 4⟩, ⟨"user", 5⟩, ⟨"assistant", 5⟩] : List Msg).drop k) = 3 →
        ([⟨"user", 1⟩, ⟨"assistant", 1⟩, ⟨"user", 2⟩, ⟨"assistant", 2⟩,
          ⟨"user", 3⟩, ⟨"assistant", 3⟩, ⟨"user", 4⟩, ⟨"assistant", 4⟩,
          ⟨"user", 5⟩, ⟨"assistant", 5⟩] : List Msg).drop k =
        ([⟨"user", 1⟩, ⟨"assistant", 1⟩, ⟨"user", 2⟩, ⟨"assistant", 2⟩,
          ⟨"user", 3⟩, ⟨"assistant", 3⟩, ⟨"user", 4⟩, ⟨"assistant", 4⟩,
          ⟨"user", 5⟩, ⟨"assistant", 5⟩] : List Msg).drop j) :=
  ⟨by decide, by decide,
    (limitHistoryTurns_spec [⟨"user", 1⟩, ⟨"assistant", 1⟩, ⟨"user", 2⟩,
      ⟨"assistant", 2⟩, ⟨"user", 3⟩, ⟨"assistant", 3⟩, ⟨"user", 4⟩,
      ⟨"assistant", 4⟩, ⟨"user", 5⟩, ⟨"assistant", 5⟩] 3 (by decide)).2
      (by decide)⟩

/-- Claim C7 witness: trimming `[assistant 50, user 10, assistant 10]` to a
25-token budget drops the leading assistant message and the result starts
with the user turn. -/
theorem truncateMessagesToFit_starts_on_user_witness :
    ([⟨"assistant", 50⟩, ⟨"user", 10⟩, ⟨"assistant", 10⟩] : List Msg) ≠ [] ∧
    (0 : Int) < 25 ∧
    (25 : Int) < (sumTokens [⟨"assistant", 50⟩, ⟨"user", 10⟩, ⟨"assistant", 10⟩] : Int) ∧
    ((truncateMessagesToFit [⟨"assistant", 50⟩, ⟨"user", 10⟩, ⟨"assistant", 10⟩]
      25).head?).map Msg.role = some "user" :=
  ⟨by decide, by decide, by decide,
    truncateMessagesToFit_starts_on_user
      [⟨"assistant", 50⟩, ⟨"user", 10⟩, ⟨"assistant", 10⟩] 25
      (by decide) (by decide) (by decide) ⟨0, by decide⟩⟩

/-- `sumTokens` on a cons cell. -/
lemma sumTokens_cons (msg : Msg) (rest : List Msg) :
    sumTokens (msg :: rest) = msg.tokens + sumTokens rest := by
  simp [sumTokens]

/-- `sumTokens` distributes over append. -/
lemma sumTokens_append (a b : List Msg) :
    sumTokens (a ++ b) = sumTokens a + sumTokens b := by
  simp [sumTokens]

/-- Dropping messages cannot increase the token total. -/
lemma sumTokens_drop_le (l : List Msg) (k : Nat) :
    sumTokens (l.drop k) ≤ sumTokens l := by
  conv_rhs => rw [← List.take_append_drop k l]
  rw [sumTokens_append]
  omega

/-- Dropping more messages cannot increase the token total. -/
lemma sumTokens_drop_mono (l : List Msg) {k k' : Nat} (h : k ≤ k') :
    sumTokens (l.drop k') ≤ sumTokens (l.drop k) := by
  have heq : l.drop k' = (l.drop k).drop (k' - k) := by
    rw [List.drop_drop]
    congr 1
    omega
  rw [heq]
  exact sumTokens_drop_le _ _

/-- The token value at an in-range index. -/
lemma tokensAt_eq_getElem (messages : List Msg) (i : Nat)
    (h : i < messages.length) : tokensAt messages i = (messages[i]).tokens := by
  unfold tokensAt
  rw [List.getElem?_eq_getElem h]
  rfl

/-- Peeling one message off a dropped suffix, token version. -/
lemma sumTokens_drop_succ (messages : List Msg) (i : Nat)
    (h : i < messages.length) :
    sumTokens (messages.drop i) =
      tokensAt messages i + sumTokens (messages.drop (i + 1)) := by
  rw [List.drop_eq_getElem_cons h, sumTokens_cons, tokensAt_eq_getElem messages i h]

/-- The drop-count loop consumes at most the whole list. -/
lemma dropCountFor_le_length : ∀ (ts : List Nat) (r : Int),
    dropCountFor ts r ≤ ts.length
  | [], _ => Nat.le_refl 0
  | t :: ts, r => by
    simp only [dropCountFor, List.length_cons]
    by_cases hr : 0 < r
    · rw [if_pos hr]
      exact Nat.succ_le_succ (dropCountFor_le_length ts (r - t))
    · rw [if_neg hr]
      exact Nat.zero_le _

/-- After the drop-count loop, the remaining tokens are at most the original
total minus the amount to remove. -/
lemma sum_drop_dropCountFor : ∀ (ts : List Nat) (r : Int),
    r ≤ (ts.sum : Int) →
    ((ts.drop (dropCountFor ts r)).sum : Int) ≤ (ts.sum : Int) - r
  | [], r, h => by
    simp only [List.sum_nil, Nat.cast_zero] at h ⊢
    simp only [dropCountFor, List.drop_nil, List.sum_nil, Nat.cast_zero]
    omega
  | t :: ts, r, h => by
    simp only [dropCountFor]
    by_cases hr : 0 < r
    · rw [if_pos hr]
      simp only [List.sum_cons] at h ⊢
      have hle : r - t ≤ (ts.sum : Int) := by omega
      have ih := sum_drop_dropCountFor ts (r - t) hle
      simp only [List.drop_succ_cons]
      omega
    · rw [if_neg hr]
      simp only [List.drop_zero]
      omega

/-- A found user index is in range. -/
lemma findUserIdx_lt : ∀ (l : List Msg) (j : Nat),
    findUserIdx l = some j → j < l.length
  | [], _, h => Option.noConfusion h
  | msg :: rest, j, h => by
    by_cases hr : msg.role = "user"
    · simp only [findUserIdx, if_pos hr, Option.some.injEq] at h
      subst h
      simp
    · simp only [findUserIdx, if_neg hr] at h
      cases hfind : findUserIdx rest with
      | none => rw [hfind] at h; simp at h
      | some j' =>
        rw [hfind] at h
        simp only [Option.map_some', Option.some.injEq] at h
        subst h
        have := findUserIdx_lt rest j' hfind
        simp only [List.length_cons]
        omega

/-- Boundary alignment only moves the drop count forward. -/
lemma adjustDropCount_ge (messages : List Msg) (dropCount : Nat) :
    dropCount ≤ adjustDropCount messages dropCount := by
  unfold adjustDropCount
  cases h : findUserIdx (messages.drop dropCount) with
  | none => exact Nat.le_refl _
  | some j => exact Nat.le_add_right _ _

/-- Boundary alignment stays within the list. -/
lemma adjustDropCount_le_length (messages : List Msg) (dropCount : Nat)
    (h : dropCount ≤ messages.length) :
    adjustDropCount messages dropCount ≤ messages.length := by
  unfold adjustDropCount
  cases hf : findUserIdx (messages.drop dropCount) with
  | none => exact h
  | some j =>
    have := findUserIdx_lt _ _ hf
    rw [List.length_drop] at this
    show dropCount + j ≤ messages.length
    omega

/-- `truncateMessagesToFit` always returns a suffix of its input. -/
lemma truncateMessagesToFit_is_drop (messages : List Msg) (b : Int) :
    ∃ k, k ≤ messages.length ∧
      truncateMessagesToFit messages b = messages.drop k := by
  simp only [truncateMessagesToFit]
  by_cases hg : messages.length = 0 ∨ b ≤ 0
  · rw [if_pos hg]
    exact ⟨messages.length, Nat.le_refl _, (List.drop_length _).symm⟩
  · rw [if_neg hg]
    by_cases hle : ((messages.map Msg.tokens).sum : Int) ≤ b
    · rw [if_pos hle]
      exact ⟨0, Nat.zero_le _, rfl⟩
    · rw [if_neg hle]
      refine ⟨_, ?_, rfl⟩
      apply adjustDropCount_le_length
      have := dropCountFor_le_length (messages.map Msg.tokens)
        (((messages.map Msg.tokens).sum : Int) - b)
      rw [List.length_map] at this
      exact this

/-- The truncated history fits the (positive) budget. -/
lemma truncateMessagesToFit_fits (messages : List Msg) (b : Int) (hb : 0 < b) :
    (sumTokens (truncateMessagesToFit messages b) : Int) ≤ b := by
  simp only [truncateMessagesToFit]
  by_cases hg : messages.length = 0 ∨ b ≤ 0
  · rw [if_pos hg]
    simp only [sumTokens, List.map_nil, List.sum_nil, Nat.cast_zero]
    omega
  · rw [if_neg hg]
    by_cases hle : ((messages.map Msg.tokens).sum : Int) ≤ b
    · rw [if_pos hle]
      exact hle
    · rw [if_neg hle]
      have hmono : sumTokens (messages.drop (adjustDropCount messages
            (dropCountFor (messages.map Msg.tokens)
              (((messages.map Msg.tokens).sum : Int) - b)))) ≤
          sumTokens (messages.drop (dropCountFor (messages.map Msg.tokens)
            (((messages.map Msg.tokens).sum : Int) - b))) :=
        sumTokens_drop_mono _ (adjustDropCount_ge _ _)
      have hdc := sum_drop_dropCountFor (messages.map Msg.tokens)
        (((messages.map Msg.tokens).sum : Int) - b) (by omega)
      have hmap : sumTokens (messages.drop (dropCountFor (messages.map Msg.tokens)
            (((messages.map Msg.tokens).sum : Int) - b))) =
          ((messages.map Msg.tokens).drop (dropCountFor (messages.map Msg.tokens)
            (((messages.map Msg.tokens).sum : Int) - b))).sum := by
        rw [sumTokens, List.map_drop]
      omega

/-- The split of `findRecentTurnsSplit`: the returned start index is in range
and the returned token count is the token total of the suffix it denotes. -/
lemma frtAux_spec (messages : List Msg) (preserve : Nat) :
    ∀ (i uc acc : Nat), i < messages.length →
      (frtAux messages preserve i uc acc).1 ≤ i ∧
      (frtAux messages preserve i uc acc).2 +
          sumTokens (messages.drop (i + 1)) =
        acc + sumTokens (messages.drop (frtAux messages preserve i uc acc).1) := by
  intro i
  induction i with
  | zero =>
    intro uc acc hlen
    simp only [frtAux]
    refine ⟨Nat.le_refl 0, ?_⟩
    have := sumTokens_drop_succ messages 0 hlen
    simp only [List.drop_zero] at this ⊢
    omega
  | succ j ih =>
    intro uc acc hlen
    have hlen' : j < messages.length := by omega
    have hpeel := sumTokens_drop_succ messages (j + 1) hlen
    by_cases hu : IsUserAt messages (j + 1)
    · by_cases hp : preserve ≤ uc + 1
      · simp only [frtAux]
        rw [if_pos hu, if_pos hp]
        refine ⟨Nat.le_refl _, ?_⟩
        dsimp only
        omega
      · have hres : frtAux messages preserve (j + 1) uc acc =
            frtAux messages preserve j (uc + 1) (acc + tokensAt messages (j + 1)) := by
          simp only [frtAux]
          rw [if_pos hu, if_neg hp]
        obtain ⟨ih1, ih2⟩ := ih (uc + 1) (acc + tokensAt messages (j + 1)) hlen'
        rw [hres]
        exact ⟨by omega, by omega⟩
    · have hres : frtAux messages preserve (j + 1) uc acc =
          frtAux messages preserve j uc (acc + tokensAt messages (j + 1)) := by
        simp only [frtAux]
        rw [if_neg hu]
      obtain ⟨ih1, ih2⟩ := ih uc (acc + tokensAt messages (j + 1)) hlen'
      rw [hres]
      exact ⟨by omega, by omega⟩

/-- The recent-turn split names a suffix and reports its exact token total. -/
lemma findRecentTurnsSplit_tokens (messages : List Msg) (preserve : Int)
    (hm : messages ≠ []) :
    (findRecentTurnsSplit messages preserve).1 ≤ messages.length ∧
    (findRecentTurnsSplit messages preserve).2 =
      sumTokens (messages.drop (findRecentTurnsSplit messages preserve).1) := by
  have hlen : messages.length ≠ 0 := by
    simpa [List.length_eq_zero] using hm
  simp only [findRecentTurnsSplit]
  by_cases hp : preserve ≤ 0
  · rw [if_pos hp]
    simp [List.drop_length, sumTokens]
  · rw [if_neg hp, if_neg hlen]
    obtain ⟨h1, h2⟩ := frtAux_spec messages preserve.toNat
      (messages.length - 1) 0 0 (by omega)
    refine ⟨by omega, ?_⟩
    rw [show messages.length - 1 + 1 = messages.length by omega,
      List.drop_length] at h2
    simpa [sumTokens] using h2

/-- The token-limited history always fits a positive budget. -/
lemma limitHistoryByTokens_fits (messages : List Msg) (b : Int)
    (options : Option LimitHistoryByTokensOptions) (hb : 0 < b) :
    (sumTokens (limitHistoryByTokens messages b options) : Int) ≤ b := by
  simp only [limitHistoryByTokens]
  by_cases hg : messages.length = 0 ∨ b ≤ 0
  · rw [if_pos hg]
    simp only [sumTokens, List.map_nil, List.sum_nil, Nat.cast_zero]
    omega
  · rw [if_neg hg]
    have hm : messages ≠ [] := by
      intro he
      exact hg (Or.inl (by rw [he]; rfl))
    by_cases hle : ((sumTokens messages : Nat) : Int) ≤ b
    · rw [if_pos hle]
      exact hle
    · rw [if_neg hle]
      obtain ⟨hslen, hstok⟩ := findRecentTurnsSplit_tokens messages
        (preserveRecentTurnsOf options) hm
      by_cases hrec : b <
          (((findRecentTurnsSplit messages (preserveRecentTurnsOf options)).2 : Nat) : Int)
      · rw [if_pos hrec]
        exact truncateMessagesToFit_fits _ _ hb
      · rw [if_neg hrec]
        by_cases hoe : (messages.take
            (findRecentTurnsSplit messages (preserveRecentTurnsOf options)).1).length = 0 ∨
            b - (((findRecentTurnsSplit messages (preserveRecentTurnsOf options)).2 : Nat) : Int) ≤ 0
        · rw [if_pos hoe]
          rw [← hstok]
          omega
        · rw [if_neg hoe]
          have hrem : (0 : Int) < b -
              (((findRecentTurnsSplit messages (preserveRecentTurnsOf options)).2 : Nat) : Int) := by
            rcases not_or.mp hoe with ⟨-, h⟩
            omega
          have hfit := truncateMessagesToFit_fits (messages.take
            (findRecentTurnsSplit messages (preserveRecentTurnsOf options)).1)
            (b - (((findRecentTurnsSplit messages (preserveRecentTurnsOf options)).2 : Nat) : Int))
            hrem
          rw [sumTokens_append]
          rw [← hstok]
          push_cast
          push_cast at hfit
          omega

/-- Claim C3 counterexample: `[user 100, assistant 10]` with budget 50 keeps
only the assistant message: the sole (and most recent) user turn is not
preserved when the recent window alone exceeds the budget. -/
theorem limitHistoryByTokens_drops_recent_cex :
    (50 : Int) < (sumTokens [⟨"user", 100⟩, ⟨"assistant", 10⟩] : Int) ∧
    limitHistoryByTokens [⟨"user", 100⟩, ⟨"assistant", 10⟩] 50 none =
      [⟨"assistant", 10⟩] ∧
    ¬ ((⟨"user", 100⟩ : Msg) ∈
      limitHistoryByTokens [⟨"user", 100⟩, ⟨"assistant", 10⟩] 50 none) := by
  refine ⟨by decide, by decide, by decide⟩

/-- Claim C3 (amended): when trimming is needed (non-empty list, positive
budget, total above budget), if the recent-turn window fits the budget the
result is a suffix of the input that contains the whole recent window (only
older messages are dropped, oldest first); if the recent window alone exceeds
the budget, the result is instead a suffix of the recent window itself (so
even recent turns can be dropped, oldest first). -/
theorem limitHistoryByTokens_preserves_recent (messages : List Msg) (b : Int)
    (options : Option LimitHistoryByTokensOptions)
    (h1 : messages ≠ []) (h2 : 0 < b)
    (h3 : b < (sumTokens messages : Int)) :
    ((((findRecentTurnsSplit messages (preserveRecentTurnsOf options)).2 : Nat) : Int) ≤ b →
      ∃ k, k ≤ (findRecentTurnsSplit messages (preserveRecentTurnsOf options)).1 ∧
        limitHistoryByTokens messages b options = messages.drop k) ∧
    (b < (((findRecentTurnsSplit messages (preserveRecentTurnsOf options)).2 : Nat) : Int) →
      ∃ k, limitHistoryByTokens messages b options =
        (messages.drop
          (findRecentTurnsSplit messages (preserveRecentTurnsOf options)).1).drop k) := by
  have hg : ¬(messages.length = 0 ∨ b ≤ 0) := by
    rintro (h | h)
    · exact h1 (List.length_eq_zero.mp h)
    · omega
  have hle : ¬(((sumTokens messages : Nat) : Int) ≤ b) := not_le.mpr h3
  constructor
  · intro hrec
    simp only [limitHistoryByTokens]
    rw [if_neg hg, if_neg hle, if_neg (not_lt.mpr hrec)]
    by_cases hoe : (messages.take
        (findRecentTurnsSplit messages (preserveRecentTurnsOf options)).1).length = 0 ∨
        b - (((findRecentTurnsSplit messages (preserveRecentTurnsOf options)).2 : Nat) : Int) ≤ 0
    · rw [if_pos hoe]
      exact ⟨(findRecentTurnsSplit messages (preserveRecentTurnsOf options)).1,
        Nat.le_refl _, rfl⟩
    · rw [if_neg hoe]
      obtain ⟨k0, hk0le, hk0⟩ := truncateMessagesToFit_is_drop
        (messages.take (findRecentTurnsSplit messages (preserveRecentTurnsOf options)).1)
        (b - (((findRecentTurnsSplit messages (preserveRecentTurnsOf options)).2 : Nat) : Int))
      have hslen := (findRecentTurnsSplit_tokens messages
        (preserveRecentTurnsOf options) h1).1
      have htk : (messages.take
          (findRecentTurnsSplit messages (preserveRecentTurnsOf options)).1).length =
          (findRecentTurnsSplit messages (preserveRecentTurnsOf options)).1 := by
        rw [List.length_take]
        omega
      refine ⟨k0, by omega, ?_⟩
      rw [hk0]
      have hsplit : messages.drop k0 = (messages.take
          (findRecentTurnsSplit messages (preserveRecentTurnsOf options)).1).drop k0 ++
          messages.drop (findRecentTurnsSplit messages (preserveRecentTurnsOf options)).1 := by
        conv_lhs => rw [← List.take_append_drop
          (findRecentTurnsSplit messages (preserveRecentTurnsOf options)).1 messages]
        rw [List.drop_append_of_le_length hk0le]
      rw [hsplit]
  · intro hrec
    simp only [limitHistoryByTokens]
    rw [if_neg hg, if_neg hle, if_pos hrec]
    obtain ⟨k, -, hk⟩ := truncateMessagesToFit_is_drop
      (messages.drop (findRecentTurnsSplit messages (preserveRecentTurnsOf options)).1) b
    exact ⟨k, hk⟩

/-- Claim C3 witness: `[user 30, user 10, assistant 10]`, budget 25, one
preserved recent turn: the recent window (20 tokens) fits, and the result is
the suffix from index 1 - the recent window survives intact. -/
theorem limitHistoryByTokens_preserves_recent_witness :
    ([⟨"user", 30⟩, ⟨"user", 10⟩, ⟨"assistant", 10⟩] : List Msg) ≠ [] ∧
    (0 : Int) < 25 ∧
    (25 : Int) < (sumTokens [⟨"user", 30⟩, ⟨"user", 10⟩, ⟨"assistant", 10⟩] : Int) ∧
    (((findRecentTurnsSplit [⟨"user", 30⟩, ⟨"user", 10⟩, ⟨"assistant", 10⟩]
      (preserveRecentTurnsOf (some ⟨some 1⟩))).2 : Nat) : Int) ≤ 25 ∧
    ∃ k, k ≤ (findRecentTurnsSplit [⟨"user", 30⟩, ⟨"user", 10⟩, ⟨"assistant", 10⟩]
        (preserveRecentTurnsOf (some ⟨some 1⟩))).1 ∧
      limitHistoryByTokens [⟨"user", 30⟩, ⟨"user", 10⟩, ⟨"assistant", 10⟩] 25
        (some ⟨some 1⟩) =
        ([⟨"user", 30⟩, ⟨"user", 10⟩, ⟨"assistant", 10⟩] : List Msg).drop k :=
  ⟨by decide, by decide, by decide, by decide,
    (limitHistoryByTokens_preserves_recent
      [⟨"user", 30⟩, ⟨"user", 10⟩, ⟨"assistant", 10⟩] 25 (some ⟨some 1⟩)
      (by decide) (by decide) (by decide)).1 (by decide)⟩

/-- Claim C8: history selection is a fixed point on its own output, both for
token-based limiting (with a positive budget) and for turn-based limiting
(with any limit). -/
theorem historySelection_fixed_point (messages : List Msg) (b : Int)
    (options : Option LimitHistoryByTokensOptions) (limit : Option Int)
    (hb : 0 < b) :
    limitHistoryByTokens (limitHistoryByTokens messages b options) b options =
      limitHistoryByTokens messages b options ∧
    limitHistoryTurns (limitHistoryTurns messages limit) limit =
      limitHistoryTurns messages limit := by
  constructor
  · by_cases hr : limitHistoryByTokens messages b options = []
    · rw [hr]
      simp [limitHistoryByTokens]
    · have hfits := limitHistoryByTokens_fits messages b options hb
      have hlen : ¬((limitHistoryByTokens messages b options).length = 0 ∨ b ≤ 0) := by
        rintro (h | h)
        · exact hr (List.length_eq_zero.mp h)
        · omega
      set r := limitHistoryByTokens messages b options with hrdef
      simp only [limitHistoryByTokens]
      rw [if_neg hlen, if_pos hfits]
  · cases limit with
    | none => rfl
    | some l =>
      by_cases hl : l ≤ 0
      · have hm : limitHistoryTurns messages (some l) = messages := by
          simp [limitHistoryTurns, if_pos (Or.inl hl)]
        rw [hm]
        exact hm
      · have hlpos : 0 < l := by omega
        have hcases := limitHistoryTurns_cases messages l hlpos
        rcases le_or_lt (countUsers messages) l.toNat with hc | hc
        · rw [hcases.1 hc]
          exact hcases.1 hc
        · obtain ⟨j, hjlen, heq, hju, hcnt⟩ := hcases.2 hc
          rw [heq]
          exact (limitHistoryTurns_cases (messages.drop j) l hlpos).1
            (Nat.le_of_eq hcnt)

/-- Claim C8 witness: both fixed-point equations at a concrete over-budget
history, budget 50 and turn limit 2. -/
theorem historySelection_fixed_point_witness :
    (0 : Int) < 50 ∧
    limitHistoryByTokens (limitHistoryByTokens
      [⟨"user", 40⟩, ⟨"assistant", 30⟩, ⟨"user", 20⟩] 50 none) 50 none =
      limitHistoryByTokens [⟨"user", 40⟩, ⟨"assistant", 30⟩, ⟨"user", 20⟩] 50 none ∧
    limitHistoryTurns (limitHistoryTurns
      [⟨"user", 40⟩, ⟨"assistant", 30⟩, ⟨"user", 20⟩] (some 2)) (some 2) =
      limitHistoryTurns [⟨"user", 40⟩, ⟨"assistant", 30⟩, ⟨"user", 20⟩] (some 2) :=
  ⟨by decide,
    (historySelection_fixed_point [⟨"user", 40⟩, ⟨"assistant", 30⟩, ⟨"user", 20⟩]
      50 none (some 2) (by decide)).1,
    (historySelection_fixed_point [⟨"user", 40⟩, ⟨"assistant", 30⟩, ⟨"user", 20⟩]
      50 none (some 2) (by decide)).2⟩

/-- `splitColon` never returns the empty list of pieces. -/
lemma splitColon_ne_nil : ∀ (l : List Char), splitColon l ≠ []
  | [] => by simp [splitColon]
  | c :: rest => by
    simp only [splitColon]
    by_cases hc : c = ':'
    · rw [if_pos hc]
      simp
    · rw [if_neg hc]
      cases hs : splitColon rest with
      | nil => exact absurd hs (splitColon_ne_nil rest)
      | cons p ps => simp

/-- Splitting at an explicit separator splits the two sides independently. -/
lemma splitColon_append : ∀ (xs ys : List Char),
    splitColon (xs ++ ':' :: ys) = splitColon xs ++ splitColon ys
  | [], ys => by simp [splitColon]
  | c :: xs, ys => by
    simp only [List.cons_append, splitColon, List.append_eq]
    by_cases hc : c = ':'
    · rw [if_pos hc, if_pos hc, splitColon_append xs ys]
      simp
    · rw [if_neg hc, if_neg hc, splitColon_append xs ys]
      cases hs : splitColon xs with
      | nil => exact absurd hs (splitColon_ne_nil xs)
      | cons p ps => simp

/-- A colon-free segment splits to itself. -/
lemma splitColon_no_colon : ∀ (l : List Char), (∀ c ∈ l, c ≠ ':') →
    splitColon l = [l]
  | [], _ => rfl
  | c :: rest, h => by
    simp only [splitColon]
    rw [if_neg (h c (List.mem_cons_self c rest))]
    rw [splitColon_no_colon rest (fun x hx => h x (List.mem_cons_of_mem c hx))]

/-- Appending `:<kw>:<digits>` to a key appends two segments to its parts. -/
lemma keyParts_append (k kw ds : List Char) (hkw : kw ≠ []) (hds : ds ≠ [])
    (hkwc : ∀ c ∈ kw, c ≠ ':') (hdsc : ∀ c ∈ ds, c ≠ ':') :
    keyParts (k ++ ':' :: kw ++ ':' :: ds) = keyParts k ++ [kw, ds] := by
  have h1 : k ++ ':' :: kw ++ ':' :: ds = k ++ ':' :: (kw ++ ':' :: ds) := by
    simp
  rw [h1]
  unfold keyParts
  rw [splitColon_append, splitColon_append, splitColon_no_colon kw hkwc,
    splitColon_no_colon ds hdsc, List.filter_append, List.filter_append]
  congr 1
  simp [hkw, hds]

/-- A keyword whose lower-casing is `thread` or `topic` contains no colon. -/
lemma thread_topic_no_colon {kw : List Char}
    (hkw : kw.map Char.toLower = "thread".toList ∨
      kw.map Char.toLower = "topic".toList) :
    ∀ c ∈ kw, c ≠ ':' := by
  intro c hc heq
  subst heq
  have hmem : Char.toLower ':' ∈ kw.map Char.toLower :=
    List.mem_map_of_mem Char.toLower hc
  rcases hkw with h | h
  · rw [h] at hmem
    revert hmem
    decide
  · rw [h] at hmem
    revert hmem
    decide

/-- Digits are not colons. -/
lemma digits_no_colon {ds : List Char} (hdig : ∀ c ∈ ds, c.isDigit = true) :
    ∀ c ∈ ds, c ≠ ':' := by
  intro c hc heq
  subst heq
  have := hdig ':' hc
  exact absurd this (by decide)

/-- `takeWhile`/`dropWhile` through an all-satisfying prefix up to a failing
head. -/
lemma takeWhile_dropWhile_append (p : Char → Bool) :
    ∀ (l1 : List Char) (c : Char) (l2 : List Char),
      (∀ x ∈ l1, p x = true) → p c = false →
      (l1 ++ c :: l2).takeWhile p = l1 ∧ (l1 ++ c :: l2).dropWhile p = c :: l2
  | [], c, l2, _, hc => by
    simp [List.takeWhile, List.dropWhile, hc]
  | x :: l1, c, l2, h1, hc => by
    have hx : p x = true := h1 x (List.mem_cons_self x l1)
    obtain ⟨ht, hd⟩ := takeWhile_dropWhile_append p l1 c l2
      (fun y hy => h1 y (List.mem_cons_of_mem x hy)) hc
    simp only [List.cons_append, List.takeWhile_cons, List.dropWhile_cons, hx,
      if_true]
    exact ⟨by rw [ht], by rw [hd]⟩

/-- Stripping the thread suffix that was just appended recovers the original
user id. -/
lemma stripThreadSuffix_append (u kw ds : List Char)
    (hkw : kw.map Char.toLower = "thread".toList ∨
      kw.map Char.toLower = "topic".toList)
    (hds : ds ≠ []) (hdig : ∀ c ∈ ds, c.isDigit = true) :
    stripThreadSuffix (u ++ ':' :: kw ++ ':' :: ds) = u := by
  have hrev : (u ++ ':' :: kw ++ ':' :: ds).reverse =
      ds.reverse ++ ':' :: (kw.reverse ++ ':' :: u.reverse) := by
    simp [List.reverse_append]
  have hdigr : ∀ x ∈ ds.reverse, Char.isDigit x = true := by
    intro x hx
    exact hdig x (List.mem_reverse.mp hx)
  have hcolon : Char.isDigit ':' = false := by decide
  obtain ⟨htake, hdrop⟩ := takeWhile_dropWhile_append Char.isDigit ds.reverse ':'
    (kw.reverse ++ ':' :: u.reverse) hdigr hcolon
  have hdsr : ds.reverse ≠ [] := by
    simpa using hds
  simp only [stripThreadSuffix]
  rw [hrev, htake, hdrop, if_neg hdsr]
  dsimp only
  rw [if_pos (rfl : (':' : Char) = ':')]
  rcases hkw with hkw | hkw
  · have hlen : kw.length = 6 := by
      have := congrArg List.length hkw
      simpa using this
    have hlenr : kw.reverse.length = 6 := by simp [hlen]
    have htk : (kw.reverse ++ ':' :: u.reverse).take 6 = kw.reverse := by
      rw [← hlenr, List.take_left]
    have hdk : (kw.reverse ++ ':' :: u.reverse).drop 6 = ':' :: u.reverse := by
      rw [← hlenr, List.drop_left]
    have hmap : kw.reverse.map Char.toLower = "daerht".toList := by
      rw [List.map_reverse, hkw]
      rfl
    have hcond : ((kw.reverse ++ ':' :: u.reverse).take 6).map Char.toLower =
        "daerht".toList ∧
        ((kw.reverse ++ ':' :: u.reverse).drop 6).head? = some ':' := by
      rw [htk, hdk, hmap]
      exact ⟨rfl, rfl⟩
    rw [if_pos hcond]
    have hd7 : (kw.reverse ++ ':' :: u.reverse).drop 7 = u.reverse := by
      rw [List.drop_append_eq_append_drop]
      rw [List.drop_eq_nil_of_le (by omega), hlenr]
      simp
    rw [hd7, List.reverse_reverse]
  · have hlen : kw.length = 5 := by
      have := congrArg List.length hkw
      simpa using this
    have hlenr : kw.reverse.length = 5 := by simp [hlen]
    have hmap : kw.reverse.map Char.toLower = "cipot".toList := by
      rw [List.map_reverse, hkw]
      rfl
    have htk6 : (kw.reverse ++ ':' :: u.reverse).take 6 =
        kw.reverse ++ [':'] := by
      rw [List.take_append_eq_append_take, List.take_of_length_le (by omega),
        hlenr]
      rfl
    have hnc : ¬(((kw.reverse ++ ':' :: u.reverse).take 6).map Char.toLower =
        "daerht".toList ∧
        ((kw.reverse ++ ':' :: u.reverse).drop 6).head? = some ':') := by
      rintro ⟨hbad, -⟩
      rw [htk6, List.map_append, hmap] at hbad
      exact absurd hbad (by decide)
    rw [if_neg hnc]
    have htk5 : (kw.reverse ++ ':' :: u.reverse).take 5 = kw.reverse := by
      rw [← hlenr, List.take_left]
    have hdk5 : (kw.reverse ++ ':' :: u.reverse).drop 5 = ':' :: u.reverse := by
      rw [← hlenr, List.drop_left]
    have hcond : ((kw.reverse ++ ':' :: u.reverse).take 5).map Char.toLower =
        "cipot".toList ∧
        ((kw.reverse ++ ':' :: u.reverse).drop 5).head? = some ':' := by
      rw [htk5, hdk5, hmap]
      exact ⟨rfl, rfl⟩
    rw [if_pos hcond]
    have hd6 : (kw.reverse ++ ':' :: u.reverse).drop 6 = u.reverse := by
      rw [List.drop_append_eq_append_drop]
      rw [List.drop_eq_nil_of_le (by omega), hlenr]
      simp
    rw [hd6, List.reverse_reverse]

/-- Joining after appending two extra segments. -/
lemma joinColon_append_two : ∀ (rest : List (List Char)) (kw ds : List Char),
    rest ≠ [] →
    joinColon (rest ++ [kw, ds]) = joinColon rest ++ ':' :: kw ++ ':' :: ds
  | [], _, _, h => absurd rfl h
  | [x], kw, ds, _ => by
    simp [joinColon]
  | x :: y :: rest, kw, ds, _ => by
    have ih := joinColon_append_two (y :: rest) kw ds (by simp)
    simp only [List.cons_append, joinColon, List.append_eq] at ih ⊢
    rw [ih]
    simp

/-- Claim C10 counterexample: the regex strips only one suffix, so for a key
whose user id already ends in `:thread:1`, appending `:thread:2` changes the
looked-up user id (`u:thread:1` instead of `u`) and can change the limit. -/
theorem getDmHistoryLimit_thread_suffix_cex :
    ("telegram:dm:u:thread:1:thread:2".toList =
      "telegram:dm:u:thread:1".toList ++ ':' :: "thread".toList ++
        ':' :: "2".toList) ∧
    getDmHistoryLimitFromSessionKey "telegram:dm:u:thread:1:thread:2".toList
      (some ⟨[("telegram".toList,
        ⟨some 3, [("u:thread:1".toList, ⟨some 7⟩)]⟩)]⟩) = some 7 ∧
    getDmHistoryLimitFromSessionKey "telegram:dm:u:thread:1".toList
      (some ⟨[("telegram".toList,
        ⟨some 3, [("u:thread:1".toList, ⟨some 7⟩)]⟩)]⟩) = some 3 ∧
    getDmHistoryLimitFromSessionKey "telegram:dm:u:thread:1:thread:2".toList
      (some ⟨[("telegram".toList,
        ⟨some 3, [("u:thread:1".toList, ⟨some 7⟩)]⟩)]⟩) ≠
    getDmHistoryLimitFromSessionKey "telegram:dm:u:thread:1".toList
      (some ⟨[("telegram".toList,
        ⟨some 3, [("u:thread:1".toList, ⟨some 7⟩)]⟩)]⟩) := by
  refine ⟨by decide, by decide, by decide, by decide⟩

/-- Claim C10 (amended): the DM history-limit lookup is invariant under a
trailing `:thread:<n>` or `:topic:<n>` suffix (case-insensitive keyword,
non-empty digits) for every well-formed session key: one whose parts list
has at least three provider parts (an `agent` head only with at least three
segments) and whose raw user id does not itself already end in a
thread/topic suffix. -/
theorem getDmHistoryLimit_thread_invariant (k : List Char)
    (config : Option OpenClawConfig) (kw ds : List Char)
    (hkw : kw.map Char.toLower = "thread".toList ∨
      kw.map Char.toLower = "topic".toList)
    (hds : ds ≠ []) (hdig : ∀ c ∈ ds, c.isDigit = true)
    (hagent : (keyParts k).head? = some "agent".toList →
      3 ≤ (keyParts k).length)
    (hpp : 3 ≤ (providerPartsOf k).length)
    (hstrip : stripThreadSuffix (parsedUserIdRaw k) = parsedUserIdRaw k) :
    getDmHistoryLimitFromSessionKey (k ++ ':' :: kw ++ ':' :: ds) config =
      getDmHistoryLimitFromSessionKey k config := by
  cases config with
  | none => rfl
  | some cfg =>
    have hkwne : kw ≠ [] := by
      intro he
      subst he
      rcases hkw with h | h <;> simp at h
    have hkwc := thread_topic_no_colon hkw
    have hdsc := digits_no_colon hdig
    have hparts : keyParts (k ++ ':' :: kw ++ ':' :: ds) =
        keyParts k ++ [kw, ds] :=
      keyParts_append k kw ds hkwne hds hkwc hdsc
    have hk : k ≠ [] := by
      intro h
      subst h
      have hempty : providerPartsOf ([] : List Char) = [] := by decide
      rw [hempty] at hpp
      simp at hpp
    have hpartsne : keyParts k ≠ [] := by
      intro h
      unfold providerPartsOf at hpp
      rw [h] at hpp
      simp at hpp
    have hppa : providerPartsOf (k ++ ':' :: kw ++ ':' :: ds) =
        providerPartsOf k ++ [kw, ds] := by
      unfold providerPartsOf
      rw [hparts]
      by_cases hag : (keyParts k).head? = some "agent".toList
      · have h3 := hagent hag
        have hhead : (keyParts k ++ [kw, ds]).head? = some "agent".toList := by
          cases hkp : keyParts k with
          | nil => exact absurd hkp hpartsne
          | cons p ps =>
            rw [hkp] at hag
            simp only [List.head?_cons, Option.some.injEq] at hag
            simp [hag]
        rw [if_pos ⟨by simp; omega, hhead⟩, if_pos ⟨h3, hag⟩]
        exact List.drop_append_of_le_length (by omega)
      · have hhead2 : ¬((keyParts k ++ [kw, ds]).head? =
            some "agent".toList) := by
          cases hkp : keyParts k with
          | nil => exact absurd hkp hpartsne
          | cons p ps =>
            rw [hkp] at hag
            simp only [List.head?_cons, Option.some.injEq] at hag
            simpa using hag
        rw [if_neg (fun hand => hhead2 hand.2),
          if_neg (fun hand => hag hand.2)]
    have hppne : providerPartsOf k ≠ [] := by
      intro h
      rw [h] at hpp
      simp at hpp
    have hhead : (providerPartsOf (k ++ ':' :: kw ++ ':' :: ds)).head? =
        (providerPartsOf k).head? := by
      rw [hppa]
      cases hkp : providerPartsOf k with
      | nil => exact absurd hkp hppne
      | cons p ps => simp
    have hkind : parsedKind (k ++ ':' :: kw ++ ':' :: ds) = parsedKind k := by
      unfold parsedKind
      rw [hppa]
      congr 1
      exact List.getElem?_append_left (by omega)
    have hrest : (providerPartsOf k).drop 2 ≠ [] := by
      intro h
      have := congrArg List.length h
      simp at this
      omega
    have hraw : parsedUserIdRaw (k ++ ':' :: kw ++ ':' :: ds) =
        parsedUserIdRaw k ++ ':' :: kw ++ ':' :: ds := by
      unfold parsedUserIdRaw
      rw [hppa, List.drop_append_of_le_length (by omega)]
      exact joinColon_append_two _ kw ds hrest
    have huid : parsedUserId (k ++ ':' :: kw ++ ':' :: ds) = parsedUserId k := by
      unfold parsedUserId
      rw [hraw, stripThreadSuffix_append _ kw ds hkw hds hdig, hstrip]
    have hk' : k ++ ':' :: kw ++ ':' :: ds ≠ [] := by
      simp
    simp only [getDmHistoryLimitFromSessionKey]
    rw [if_neg hk', if_neg hk]
    simp only [hhead, hkind, huid]

/-- Claim C10 witness: appending `:thread:7` to the well-formed key
`telegram:dm:u42` leaves the looked-up limit unchanged. -/
theorem getDmHistoryLimit_thread_invariant_witness :
    ("thread".toList.map Char.toLower = "thread".toList ∨
      "thread".toList.map Char.toLower = "topic".toList) ∧
    (['7'] : List Char) ≠ [] ∧
    (∀ c ∈ (['7'] : List Char), c.isDigit = true) ∧
    ((keyParts "telegram:dm:u42".toList).head? = some "agent".toList →
      3 ≤ (keyParts "telegram:dm:u42".toList).length) ∧
    3 ≤ (providerPartsOf "telegram:dm:u42".toList).length ∧
    stripThreadSuffix (parsedUserIdRaw "telegram:dm:u42".toList) =
      parsedUserIdRaw "telegram:dm:u42".toList ∧
    getDmHistoryLimitFromSessionKey
      ("telegram:dm:u42".toList ++ ':' :: "thread".toList ++ ':' :: ['7'])
      (some ⟨[("telegram".toList, ⟨some 3, [("u42".toList, ⟨some 7⟩)]⟩)]⟩) =
    getDmHistoryLimitFromSessionKey "telegram:dm:u42".toList
      (some ⟨[("telegram".toList, ⟨some 3, [("u42".toList, ⟨some 7⟩)]⟩)]⟩) :=
  ⟨Or.inl (by decide), by decide, by decide, by decide, by decide, by decide,
    getDmHistoryLimit_thread_invariant "telegram:dm:u42".toList
      (some ⟨[("telegram".toList, ⟨some 3, [("u42".toList, ⟨some 7⟩)]⟩)]⟩)
      "thread".toList ['7'] (Or.inl (by decide)) (by decide) (by decide)
      (by decide) (by decide) (by decide)⟩
